import Mathlib

/-!
Verification development for the Redis-protocol front-end of
`src/yb/redisserver/redis_service.cc`: the batch dispatcher and the
conflict-aware scheduler (`Block`, `BatchContext`, `RedisServiceImpl::Impl`).

The C++ core is shallowly embedded as executable Lean functions:

* the command table (`REDIS_COMMANDS`) and handler lookup (`FetchHandler`);
* the per-command dispatch logic of `RedisServiceImpl::Impl::Handle`
  (`RouteOf`, `HandleOne`, `HandleBatch`);
* the scheduler `BatchContext` (`SchedState`, `CheckConflicts`,
  `ConflictFound`, `SchedApply`) with blocks stored in an append-only
  array and identified by their position;
* `Block::Launch` / `Block::Done` / `BatchContext::Commit`, linearized
  into an event trace (`blockEvents`, `chainTrace`, `CommitEvents`,
  `FullTrace`).  The successor of a chained block is launched from the
  predecessor's completion callback, so the chain is sequential in the
  source as well; the only concurrency collapsed by the linearization is
  the launch of an unchained read block and write block, which the model
  runs read-first exactly as `Commit` issues them.

External collaborators that are out of scope for the spec (the per-command
argument parsers, the backend session, the wire transport) enter as an
oracle environment `BatchEnv`: the parse outcome, the extracted key, the
synchronous apply outcome, and the flush outcome of each block are
parameters, as are the backend-populated responses.
-/

namespace RedisService

/-- Kind of a supported command: `READ`/`WRITE` become backend operations,
`ECHO` is answered synchronously by the dispatcher. -/
inductive CommandKind where
  | READ
  | WRITE
  | ECHO
deriving DecidableEq, Repr

/-- One entry of the command table (`struct RedisCommandInfo`): name,
signed arity and the kind encoded by the functor installed for it. -/
structure RedisCommandInfo where
  name : String
  arity : Int
  kind : CommandKind
deriving DecidableEq, Repr

/-- The fixed command list `REDIS_COMMANDS` of `redis_service.cc`, with the
arity and the operation kind of each command. -/
def REDIS_COMMANDS : List RedisCommandInfo := [
  ⟨"get", 2, .READ⟩, ⟨"mget", -2, .READ⟩, ⟨"hget", 3, .READ⟩,
  ⟨"hmget", -3, .READ⟩, ⟨"hgetall", 2, .READ⟩, ⟨"smembers", 2, .READ⟩,
  ⟨"strlen", 2, .READ⟩, ⟨"exists", 2, .READ⟩, ⟨"getrange", 4, .READ⟩,
  ⟨"set", -3, .WRITE⟩, ⟨"mset", -3, .WRITE⟩, ⟨"hset", 4, .WRITE⟩,
  ⟨"hmset", -4, .WRITE⟩, ⟨"hdel", -3, .WRITE⟩, ⟨"sadd", -3, .WRITE⟩,
  ⟨"srem", -3, .WRITE⟩, ⟨"getset", 3, .WRITE⟩, ⟨"append", 3, .WRITE⟩,
  ⟨"del", 2, .WRITE⟩, ⟨"setrange", 4, .WRITE⟩, ⟨"incr", 2, .WRITE⟩,
  ⟨"echo", 2, .ECHO⟩ ]

/-- `boost::to_lower` on the command name, character by character. -/
def to_lower (s : String) : String := ⟨s.data.map Char.toLower⟩

/-- `RedisServiceImpl::Impl::FetchHandler`: `nullptr` when the command has
no tokens, otherwise a case-insensitive lookup of the first token in the
command table (`command_name_to_info_map_`, keyed by lowercased name). -/
def FetchHandler (cmd_args : List String) : Option RedisCommandInfo :=
  match cmd_args with
  | [] => none
  | c0 :: _ => REDIS_COMMANDS.find? (fun info => info.name == to_lower c0)

/-- The minimal slice of `RedisResponsePB` the claims need. -/
structure RedisResponsePB where
  string_response : Option String
deriving DecidableEq, Repr

/-- An `Operation`: the kind flag (`read_`) and the batch index whose
response slot it owns.  The backend payload is kept in the environment. -/
structure Operation where
  read : Bool
  index : Nat
deriving DecidableEq, Repr, Inhabited

/-- A `Block`: its operations in append order and the optional successor
(`next_`), referenced by block id (position in the scheduler's store). -/
structure Block where
  ops : List Operation
  next : Option Nat
deriving DecidableEq, Repr, Inhabited

/-- `BatchContext::BlockData`: the used-key set of one kind and the
currently open block of that kind. -/
structure BlockData where
  usedKeys : List String
  block : Option Nat
deriving DecidableEq, Repr

/-- `BatchContext`'s scheduler state.  Blocks live in an append-only store
`blocks` identified by position.  `dfatalCount` counts how many times the
`SetNext` performed inside `BatchContext::Apply` returned a previously
installed successor (the `LOG(DFATAL)` branch). -/
structure SchedState where
  blocks : List Block
  readData : BlockData
  writeData : BlockData
  flushHead : Option Nat
  lastConflictWasRead : Option Bool
  dfatalCount : Nat
deriving DecidableEq, Repr

/-- The scheduler state of a freshly constructed `BatchContext`. -/
def initState : SchedState :=
  ⟨[], ⟨[], none⟩, ⟨[], none⟩, none, none, 0⟩

/-- `BatchContext::data(read)`. -/
def SchedState.getData (s : SchedState) (r : Bool) : BlockData :=
  match r with
  | true => s.readData
  | false => s.writeData

/-- Store back into `BatchContext::data(read)`. -/
def SchedState.setData (s : SchedState) (r : Bool) (d : BlockData) : SchedState :=
  match r with
  | true => { s with readData := d }
  | false => { s with writeData := d }

/-- `Block::SetNext`: installs a successor on block `bid` and returns the
previously installed one. -/
def setNextB (s : SchedState) (bid : Nat) (v : Option Nat) :
    Option Nat × SchedState :=
  let b := s.blocks.getD bid default
  (b.next, { s with blocks := s.blocks.set bid { b with next := v } })

/-- `Block::AddOperation` on block `bid` (a `push_back`). -/
def addOp (blocks : List Block) (bid : Nat) (o : Operation) : List Block :=
  let b := blocks.getD bid default
  blocks.set bid { b with ops := b.ops ++ [o] }

/-- `BatchContext::ConflictFound`.  On the first conflict the opposite
block is promoted to `flush_head_` and its successor set to the current
kind's block; on a later phase flip the current kind's slot and used keys
are discarded.  (When the opposite slot is empty the C++ would dereference
a null block pointer; that state is unreachable through the service and the
model leaves the links unchanged there.) -/
def ConflictFound (r : Bool) (s : SchedState) : SchedState :=
  match s.lastConflictWasRead with
  | none =>
    let s1 := { s with flushHead := (s.getData (!r)).block }
    let s2 :=
      match (s1.getData (!r)).block with
      | some oid => (setNextB s1 oid ((s1.getData r).block)).2
      | none => s1
    { s2 with lastConflictWasRead := some r }
  | some _ =>
    let s1 := s.setData r ⟨[], none⟩
    { s1 with lastConflictWasRead := some r }

/-- `BatchContext::CheckConflicts`: skip when the last conflict was already
of this kind (the tribool compare `last_conflict_was_read_ == read` is only
true on a determinate equal value); otherwise look for any key of this
operation in the opposite kind's used keys. -/
def CheckConflicts (r : Bool) (keys : List String) (s : SchedState) : SchedState :=
  if s.lastConflictWasRead = some r then s
  else if keys.any (fun k => (s.getData (!r)).usedKeys.contains k) then
    ConflictFound r s
  else s

/-- `BatchContext::Apply`: conflict check, lazy creation of this kind's
block (chaining it behind the opposite kind's block when the current kind
is the active chain tail, counting a non-absent prior successor in
`dfatalCount`), appending the operation, and remembering its keys. -/
def SchedApply (idx : Nat) (r : Bool) (keys : List String) (s0 : SchedState) :
    SchedState :=
  let s := CheckConflicts r keys s0
  let s :=
    if (s.getData r).block = none then
      let newId := s.blocks.length
      let s1 := { s with blocks := s.blocks ++ [Block.mk [] none] }
      let s2 := s1.setData r { s1.getData r with block := some newId }
      if s2.lastConflictWasRead = some r then
        match (s2.getData (!r)).block with
        | some oid =>
          let p := setNextB s2 oid (some newId)
          if p.1.isSome then { p.2 with dfatalCount := p.2.dfatalCount + 1 }
          else p.2
        | none => s2
      else s2
    else s
  let s :=
    match (s.getData r).block with
    | some bid => { s with blocks := addOp s.blocks bid ⟨r, idx⟩ }
    | none => s
  s.setData r { s.getData r with usedKeys := (s.getData r).usedKeys ++ keys }

/-- Oracle environment for one batch: outcomes of the out-of-scope
collaborators, keyed by batch index (for per-operation outcomes) or by
block id (for per-flush outcomes). -/
structure BatchEnv where
  parseErr : Nat → Option String
  keyErr : Nat → Option String
  keyOf : Nat → String
  applyErr : Nat → Option String
  flushErr : Nat → Option String
  opResponse : Nat → RedisResponsePB

/-- Observable events of one batch: per-index responses, the issuing of an
asynchronous flush of a block, the submission of an operation to the
backend inside such a flush, and the out-of-bounds token read that
`RespondWithFailure` performs on a command with no tokens. -/
inductive Event where
  | respS (idx : Nat) (r : RedisResponsePB)
  | respF (idx : Nat) (msg : String)
  | flush (bid : Nat)
  | submit (idx : Nat)
  | oob
deriving DecidableEq, Repr

/-- Is `e` a response (of either polarity) for batch index `i`? -/
def isRespFor (i : Nat) (e : Event) : Bool :=
  match e with
  | .respS j _ => j == i
  | .respF j _ => j == i
  | _ => false

/-- Is `e` a response event at all? -/
def isResp (e : Event) : Bool :=
  match e with
  | .respS _ _ => true
  | .respF _ _ => true
  | _ => false

/-- `RedisServiceImpl::Impl::RespondWithFailure`: reads `command[0]`
unconditionally to build the `"$0: $1"` message.  On a command with no
tokens that read is out of bounds, which the model records as an `oob`
event. -/
def respondWithFailureEvents (command : List String) (idx : Nat)
    (error : String) : List Event :=
  match command.get? 0 with
  | some cmd => [.respF idx (cmd ++ ": " ++ error)]
  | none => [.oob]

/-- The routing decision of the dispatch loop in
`RedisServiceImpl::Impl::Handle` for one command: handler lookup followed
by the two arity checks, in the source's order. -/
inductive Route where
  | unsupported
  | tooFew
  | wrongNumber
  | dispatch (info : RedisCommandInfo)
deriving DecidableEq, Repr

/-- The `if`-chain of `Handle` for one command. -/
def RouteOf (c : List String) : Route :=
  match FetchHandler c with
  | none => .unsupported
  | some info =>
    if info.arity < 0 ∧ c.length < (-info.arity).toNat then .tooFew
    else if 0 < info.arity ∧ c.length ≠ info.arity.toNat then .wrongNumber
    else .dispatch info

/-- `RedisServiceImpl::Impl::Command<Op>`: run the parser; on success and
with safe batching also extract the primary key; on any failure respond
immediately, otherwise forward to `BatchContext::Apply`. -/
def CommandStep (safeBatch : Bool) (env : BatchEnv) (c : List String)
    (r : Bool) (idx : Nat) (st : SchedState) : List Event × SchedState :=
  match env.parseErr idx with
  | some msg => (respondWithFailureEvents c idx msg, st)
  | none =>
    if safeBatch then
      match env.keyErr idx with
      | some msg => (respondWithFailureEvents c idx msg, st)
      | none => ([], SchedApply idx r [env.keyOf idx] st)
    else ([], SchedApply idx r [] st)

/-- One iteration of `Handle`'s dispatch loop: route the command, emit the
corresponding failure, answer ECHO synchronously
(`RedisServiceImpl::Impl::EchoCommand` with `ParseEcho`, which returns
`command[1]`), or run the kind-specific `Command<Op>` handler. -/
def HandleOne (safeBatch : Bool) (env : BatchEnv) (c : List String)
    (idx : Nat) (st : SchedState) : List Event × SchedState :=
  match RouteOf c with
  | .unsupported => (respondWithFailureEvents c idx "Unsupported call.", st)
  | .tooFew => (respondWithFailureEvents c idx "Too few arguments.", st)
  | .wrongNumber =>
      (respondWithFailureEvents c idx "Wrong number of arguments.", st)
  | .dispatch info =>
    match info.kind with
    | .ECHO => ([.respS idx ⟨some (c.getD 1 "")⟩], st)
    | .READ => CommandStep safeBatch env c true idx st
    | .WRITE => CommandStep safeBatch env c false idx st

/-- One accumulation step of `Handle`'s dispatch loop. -/
def HandleStep (safeBatch : Bool) (env : BatchEnv) (batch : List (List String))
    (acc : List Event × SchedState) (idx : Nat) : List Event × SchedState :=
  let p := HandleOne safeBatch env (batch.getD idx []) idx acc.2
  (acc.1 ++ p.1, p.2)

/-- The dispatch loop of `Handle` over the first `t` commands of the batch. -/
def HandleUpTo (safeBatch : Bool) (env : BatchEnv)
    (batch : List (List String)) (t : Nat) : List Event × SchedState :=
  (List.range t).foldl (HandleStep safeBatch env batch) ([], initState)

/-- The dispatch loop of `Handle` over the whole batch, accumulating the
synchronously emitted events and the scheduler state. -/
def HandleBatch (safeBatch : Bool) (env : BatchEnv)
    (batch : List (List String)) : List Event × SchedState :=
  HandleUpTo safeBatch env batch batch.length

/-- `Block::Done`: on flush success respond success for every operation of
the block; on failure respond the aggregate status against every operation
of the block.  (The source iterates over all of `ops_`, including
operations whose synchronous apply already failed at launch.) -/
def doneEvents (env : BatchEnv) (bid : Nat) (b : Block) : List Event :=
  match env.flushErr bid with
  | none => b.ops.map (fun o => .respS o.index (env.opResponse o.index))
  | some msg => b.ops.map (fun o => .respF o.index msg)

/-- `Block::Launch` followed (when a flush was issued) by the completion
callback `Block::Done`: apply each operation in order, responding failure
immediately for a synchronous apply error; when at least one operation
applied, issue the asynchronous flush (submitting the applied operations)
and run `Done` on its status. -/
def blockEvents (env : BatchEnv) (bid : Nat) (b : Block) : List Event :=
  let failEvents := b.ops.filterMap
    (fun o => (env.applyErr o.index).map (fun m => Event.respF o.index m))
  let okOps := b.ops.filter (fun o => env.applyErr o.index = none)
  if okOps.isEmpty then failEvents
  else
    failEvents ++ Event.flush bid :: okOps.map (fun o => Event.submit o.index)
      ++ doneEvents env bid b

/-- The block ids visited by launching a (possibly chained) block and
cascading through `next_`, with fuel bounding the walk. -/
def chainIds (blocks : List Block) : Option Nat → Nat → List Nat
  | _, 0 => []
  | none, _ => []
  | some bid, fuel + 1 =>
      bid :: chainIds blocks (blocks.getD bid default).next fuel

/-- The events of launching a chain of blocks. -/
def chainTrace (env : BatchEnv) (blocks : List Block) (h : Option Nat)
    (fuel : Nat) : List Event :=
  (chainIds blocks h fuel).flatMap
    (fun bid => blockEvents env bid (blocks.getD bid default))

/-- `BatchContext::Commit`: launch the chain head when one was designated,
otherwise launch the read block and then the write block. -/
def CommitEvents (env : BatchEnv) (s : SchedState) : List Event :=
  match s.flushHead with
  | some h => chainTrace env s.blocks (some h) s.blocks.length
  | none =>
      chainTrace env s.blocks s.readData.block s.blocks.length ++
      chainTrace env s.blocks s.writeData.block s.blocks.length

/-- The full observable trace of one inbound batch: the dispatch loop's
synchronous events followed by the commit of the scheduler's plan. -/
def FullTrace (safeBatch : Bool) (env : BatchEnv)
    (batch : List (List String)) : List Event :=
  let p := HandleBatch safeBatch env batch
  p.1 ++ CommitEvents env p.2

/-- Classification of batch index `i` by the dispatch loop: `some read`
when the command becomes a backend operation handed to
`BatchContext::Apply` (with its kind flag), `none` when it is answered
synchronously (lookup/arity/parse/key failure, or ECHO). -/
def opFlag (safeBatch : Bool) (env : BatchEnv) (batch : List (List String))
    (i : Nat) : Option Bool :=
  match RouteOf (batch.getD i []) with
  | .dispatch info =>
    match info.kind with
    | .ECHO => none
    | .READ =>
      match env.parseErr i with
      | some _ => none
      | none =>
        if safeBatch then
          match env.keyErr i with
          | some _ => none
          | none => some true
        else some true
    | .WRITE =>
      match env.parseErr i with
      | some _ => none
      | none =>
        if safeBatch then
          match env.keyErr i with
          | some _ => none
          | none => some false
        else some false
  | _ => none

/-- The key list handed to `BatchContext::Apply` for batch index `i`:
the extracted primary key under safe batching, empty otherwise. -/
def opKeys (safeBatch : Bool) (env : BatchEnv) (i : Nat) : List String :=
  if safeBatch then [env.keyOf i] else []

/-- The batch indices among the first `t` commands that reach
`BatchContext::Apply`, in dispatch order. -/
def dispatchedUpTo (safeBatch : Bool) (env : BatchEnv)
    (batch : List (List String)) (t : Nat) : List Nat :=
  (List.range t).filter (fun i => (opFlag safeBatch env batch i).isSome)

/-- `Links blocks ch`: the ids in `ch` are linked in order through the
`next_` pointers, and the last one has no successor. -/
def Links (blocks : List Block) : List Nat → Prop
  | [] => True
  | [a] => (blocks.getD a default).next = none
  | a :: b :: rest =>
      (blocks.getD a default).next = some b ∧ Links blocks (b :: rest)

/-! Concrete environments and batches used to evaluate the model. -/

/-- Everything succeeds; every command's key is `"k"`. -/
def envPlainK : BatchEnv :=
  ⟨fun _ => none, fun _ => none, fun _ => "k",
   fun _ => none, fun _ => none, fun _ => ⟨none⟩⟩

/-- Distinct keys `"a"`/`"b"`; the session synchronously rejects the
operation of batch index 1; the flush succeeds. -/
def envApplyFail1 : BatchEnv :=
  ⟨fun _ => none, fun _ => none, fun i => if i = 0 then "a" else "b",
   fun i => if i = 1 then some "apply rejected" else none,
   fun _ => none, fun _ => ⟨none⟩⟩

/-- Distinct keys `"x"`/`"y"`; the session synchronously rejects the
operation of batch index 0; the flush succeeds. -/
def envApplyFail0 : BatchEnv :=
  ⟨fun _ => none, fun _ => none, fun i => if i = 0 then "x" else "y",
   fun i => if i = 0 then some "apply rejected" else none,
   fun _ => none, fun _ => ⟨none⟩⟩

/-- The session rejects every operation synchronously. -/
def envAllApplyFail : BatchEnv :=
  ⟨fun _ => none, fun _ => none, fun _ => "k",
   fun _ => some "rejected", fun _ => none, fun _ => ⟨none⟩⟩

/-- Two writes on distinct keys. -/
def batchTwoSets : List (List String) := [["set", "a", "1"], ["set", "b", "2"]]

/-- Two writes on distinct keys `x`/`y`. -/
def batchTwoSetsXY : List (List String) := [["set", "x", "1"], ["set", "y", "2"]]

/-- READ, WRITE, READ, WRITE alternating on the single key `"k"`. -/
def batchAlt : List (List String) :=
  [["get", "k"], ["set", "k", "v"], ["get", "k"], ["set", "k", "v"]]

/-- A write followed by a read of the same key `"k"`. -/
def batchWR : List (List String) := [["set", "k", "v"], ["get", "k"]]

/-- A single-operation block whose operation owns batch index 0, with a
successor installed. -/
def blkOneOp : Block := ⟨[⟨false, 0⟩], some 1⟩

/-! The reachable-state invariant of the scheduler.  `R i` is the kind and
`K i` the key list of the operation dispatched at batch index `i`;
`applied` lists the indices already handed to `BatchContext::Apply`. -/

/-- Invariant of a scheduler state before any conflict was found
(`last_conflict_was_read_` indeterminate): no chain head, no successor
links, every block is an open slot block, all keys of every applied
operation are tracked in its kind's used-key set, and no two applied
operations of opposite kinds share a key. -/
structure PhaseA (R : Nat → Bool) (K : Nat → List String)
    (applied : List Nat) (s : SchedState) : Prop where
  lcNone : s.lastConflictWasRead = none
  fhNone : s.flushHead = none
  nextNone : ∀ bid, bid < s.blocks.length →
      (s.blocks.getD bid default).next = none
  slotCover : ∀ bid, bid < s.blocks.length →
      (s.getData true).block = some bid ∨ (s.getData false).block = some bid
  keysTracked : ∀ i ∈ applied, ∀ κ ∈ K i, κ ∈ (s.getData (R i)).usedKeys
  noPair : ∀ i ∈ applied, ∀ j ∈ applied, R i = !R j → ∀ κ ∈ K i, κ ∉ K j

/-- Invariant of a scheduler state after a conflict (`l` is the kind of
the most recent phase flip): all blocks form one linear chain `ch` headed
by `flush_head_`; the two open slot blocks are the last two links, the
chain tail being of kind `l`; the keys of every operation of the tail are
tracked in `l`'s used-key set; and operations of opposite kinds sharing a
key sit in chain-order-respecting blocks. -/
structure PhaseB (R : Nat → Bool) (K : Nat → List String)
    (applied : List Nat) (s : SchedState) (l : Bool) (ch : List Nat) :
    Prop where
  lcSome : s.lastConflictWasRead = some l
  links : Links s.blocks ch
  nodup : ch.Nodup
  cover : ∀ bid, bid ∈ ch ↔ bid < s.blocks.length
  two : 2 ≤ ch.length
  fhHead : s.flushHead = some (ch.getD 0 0)
  slotTail : (s.getData l).block = some (ch.getD (ch.length - 1) 0)
  slotPred : (s.getData (!l)).block = some (ch.getD (ch.length - 2) 0)
  tailKeys : ∀ o ∈ (s.blocks.getD (ch.getD (ch.length - 1) 0) default).ops,
      ∀ κ ∈ K o.index, κ ∈ (s.getData l).usedKeys
  pairOrder : ∀ t1 t2, t1 < ch.length → t2 < ch.length →
      ∀ o1 ∈ (s.blocks.getD (ch.getD t1 0) default).ops,
      ∀ o2 ∈ (s.blocks.getD (ch.getD t2 0) default).ops,
      o1.index < o2.index → o1.read = !o2.read →
      (∃ κ ∈ K o1.index, κ ∈ K o2.index) → t1 < t2

/-- The full reachable-state invariant of `BatchContext`. -/
structure SInv (R : Nat → Bool) (K : Nat → List String)
    (applied : List Nat) (s : SchedState) : Prop where
  dfatal0 : s.dfatalCount = 0
  slotValid : ∀ b bid, (s.getData b).block = some bid → bid < s.blocks.length
  blockNE : ∀ bid, bid < s.blocks.length → (s.blocks.getD bid default).ops ≠ []
  opsChar : ∀ bid, bid < s.blocks.length →
      ∀ o ∈ (s.blocks.getD bid default).ops,
        o.index ∈ applied ∧ o.read = R o.index
  reg : ∀ i ∈ applied, ∃ bid, bid < s.blocks.length ∧
      ∃ o ∈ (s.blocks.getD bid default).ops, o.index = i
  regU : ∀ bid1 bid2, bid1 < s.blocks.length → bid2 < s.blocks.length →
      ∀ o1 ∈ (s.blocks.getD bid1 default).ops,
      ∀ o2 ∈ (s.blocks.getD bid2 default).ops,
      o1.index = o2.index → bid1 = bid2
  slotKind : ∀ b bid, (s.getData b).block = some bid →
      ∀ o ∈ (s.blocks.getD bid default).ops, o.read = b
  slotsNe : ∀ br bw, (s.getData true).block = some br →
      (s.getData false).block = some bw → br ≠ bw
  emptySlotKeys : ∀ b, (s.getData b).block = none → (s.getData b).usedKeys = []
  phase : PhaseA R K applied s ∨ ∃ l ch, PhaseB R K applied s l ch

/-! Claim theorems on the dispatcher. -/

/-- C4: for the batch `GET k; SET k v; GET k; SET k v` under safe batching
the scheduler builds a linear chain of exactly four blocks, one operation
each, the chain head (`flush_head_`) being the first (READ) block, and
each later block installed as the successor of the previous one. -/
theorem c4_alternating_chain :
    (HandleBatch true envPlainK batchAlt).2 =
      ⟨[⟨[⟨true, 0⟩], some 1⟩, ⟨[⟨false, 1⟩], some 2⟩,
        ⟨[⟨true, 2⟩], some 3⟩, ⟨[⟨false, 3⟩], none⟩],
       ⟨["k"], some 2⟩, ⟨["k"], some 3⟩, some 0, some false, 0⟩ ∧
    chainIds (HandleBatch true envPlainK batchAlt).2.blocks (some 0)
      (HandleBatch true envPlainK batchAlt).2.blocks.length = [0, 1, 2, 3] := by
  exact ⟨rfl, rfl⟩

/-- C1: exhibit of the double response.  In a batch of two writes placed
into one block, when the session synchronously rejects the second
operation at launch but the first flushes fine, index 1 receives two
responses (the immediate failure from `Launch` and a success from `Done`,
which iterates over all of `ops_`), so a batch of 2 commands gets 3
responses. -/
theorem c1_double_response_on_apply_failure :
    batchTwoSets.length = 2 ∧
    (FullTrace true envApplyFail1 batchTwoSets).countP
      (fun e => isRespFor 1 e) = 2 ∧
    (FullTrace true envApplyFail1 batchTwoSets).countP
      (fun e => isResp e) = 3 := by
  exact ⟨rfl, rfl, rfl⟩

/-- C2: exhibit that a synchronously rejected operation is responded to
immediately (`respF 0` first) and that the rest of its block proceeds to
the flush (`submit 1`, `respS 1`), but the rejected operation is NOT
dropped from the block: `Done` responds to index 0 a second time. -/
theorem c2_apply_failed_op_not_dropped :
    FullTrace true envApplyFail0 batchTwoSetsXY =
      [.respF 0 "apply rejected", .flush 0, .submit 1,
       .respS 0 ⟨none⟩, .respS 1 ⟨none⟩] ∧
    (FullTrace true envApplyFail0 batchTwoSetsXY).countP
      (fun e => isRespFor 0 e) = 2 := by
  exact ⟨rfl, rfl⟩

/-- C8 counterexample: for the unknown command sent as `FOO`, the failure
message keeps the client's casing — it is `"FOO: Unsupported call."`, not
the claimed `"foo: Unsupported call."` (`RespondWithFailure` uses
`command[0]` verbatim; only the lookup key is lowercased). -/
theorem c8_unknown_command_case_cex :
    FullTrace true envPlainK [["FOO", "a", "b"]] =
      [.respF 0 "FOO: Unsupported call."] ∧
    "FOO: Unsupported call." ≠ "foo: Unsupported call." := by
  exact ⟨rfl, by decide⟩

/-- C8 (amended): every failure emitted by the dispatcher through
`RespondWithFailure` is prefixed by the offending command's first token
exactly as sent, followed by `": "`; in particular `FOO` yields
`"FOO: Unsupported call."`. -/
theorem c8_failure_prefix_verbatim :
    (∀ (t : String) (cs : List String) (idx : Nat) (err : String),
       respondWithFailureEvents (t :: cs) idx err =
         [.respF idx (t ++ ": " ++ err)]) ∧
    FullTrace true envPlainK [["FOO", "a", "b"]] =
      [.respF 0 "FOO: Unsupported call."] := by
  exact ⟨fun _ _ _ _ => rfl, rfl⟩

/-- C10: the dispatcher's failure-response routine reads `command[0]`
unconditionally, so it is well defined exactly on commands with at least
one token; a command with zero tokens fails handler lookup and the
resulting failure response performs an out-of-bounds read. -/
theorem c10_zero_token_oob :
    FetchHandler ([] : List String) = none ∧
    (∀ sb env idx st, HandleOne sb env [] idx st = ([Event.oob], st)) ∧
    (∀ (t : String) (cs : List String) (idx : Nat) (err : String),
       respondWithFailureEvents (t :: cs) idx err =
         [.respF idx (t ++ ": " ++ err)]) ∧
    (∀ idx err, respondWithFailureEvents [] idx err = [Event.oob]) := by
  exact ⟨rfl, fun _ _ _ _ => rfl, fun _ _ _ _ => rfl, fun _ _ => rfl⟩

/-- C9: an ECHO command with exactly two tokens is answered synchronously
with `string_response` equal (byte for byte) to its second token, and the
scheduler state is untouched: no operation, block or backend contact. -/
theorem c9_echo (s t : String) (sb : Bool) (env : BatchEnv) (idx : Nat)
    (st : SchedState) (h : to_lower s = "echo") :
    HandleOne sb env [s, t] idx st = ([.respS idx ⟨some t⟩], st) := by
  unfold HandleOne RouteOf FetchHandler
  simp only [h]
  rfl

/-- Witness for C9 at the concrete command `ECHO hi`. -/
theorem c9_echo_w :
    HandleOne true envPlainK ["ECHO", "hi"] 0 initState =
      ([.respS 0 ⟨some "hi"⟩], initState) :=
  c9_echo "ECHO" "hi" true envPlainK 0 initState (by decide)

/-- C7: for a command that resolves to a descriptor, a positive arity
fails with "Wrong number of arguments." exactly when the token count
differs from the arity, a negative arity fails with "Too few arguments."
exactly when the token count is below its absolute value, and otherwise
the command is dispatched to its parser. -/
theorem c7_arity_check (c0 : String) (cs : List String)
    (info : RedisCommandInfo) (h : FetchHandler (c0 :: cs) = some info) :
    (0 < info.arity →
       ((RouteOf (c0 :: cs) = .wrongNumber ↔
           (c0 :: cs).length ≠ info.arity.toNat) ∧
        ((c0 :: cs).length = info.arity.toNat →
           RouteOf (c0 :: cs) = .dispatch info))) ∧
    (info.arity < 0 →
       ((RouteOf (c0 :: cs) = .tooFew ↔
           (c0 :: cs).length < (-info.arity).toNat) ∧
        ((-info.arity).toNat ≤ (c0 :: cs).length →
           RouteOf (c0 :: cs) = .dispatch info))) ∧
    (∀ sb env idx st, RouteOf (c0 :: cs) = .wrongNumber →
       HandleOne sb env (c0 :: cs) idx st =
         ([.respF idx (c0 ++ ": " ++ "Wrong number of arguments.")], st)) ∧
    (∀ sb env idx st, RouteOf (c0 :: cs) = .tooFew →
       HandleOne sb env (c0 :: cs) idx st =
         ([.respF idx (c0 ++ ": " ++ "Too few arguments.")], st)) := by
  have hroute : RouteOf (c0 :: cs) =
      (if info.arity < 0 ∧ (c0 :: cs).length < (-info.arity).toNat then
         Route.tooFew
       else if 0 < info.arity ∧ (c0 :: cs).length ≠ info.arity.toNat then
         Route.wrongNumber
       else Route.dispatch info) := by
    unfold RouteOf
    rw [h]
  refine ⟨?_, ?_, ?_, ?_⟩
  · intro hpos
    have hA : ¬(info.arity < 0 ∧ (c0 :: cs).length < (-info.arity).toNat) := by
      rintro ⟨h1, -⟩
      omega
    rw [hroute, if_neg hA]
    by_cases hB : (c0 :: cs).length = info.arity.toNat
    · have hc : ¬(0 < info.arity ∧ (c0 :: cs).length ≠ info.arity.toNat) :=
        fun hx => hx.2 hB
      rw [if_neg hc]
      exact ⟨iff_of_false (fun hx => Route.noConfusion hx) (fun hx => hx hB),
        fun _ => rfl⟩
    · rw [if_pos ⟨hpos, hB⟩]
      exact ⟨iff_of_true rfl hB, fun hc => absurd hc hB⟩
  · intro hneg
    rw [hroute]
    by_cases hA : (c0 :: cs).length < (-info.arity).toNat
    · rw [if_pos ⟨hneg, hA⟩]
      exact ⟨iff_of_true rfl hA, fun hc => absurd hc (by omega)⟩
    · have hB : ¬(0 < info.arity ∧ (c0 :: cs).length ≠ info.arity.toNat) := by
        rintro ⟨h1, -⟩
        omega
      rw [if_neg (fun hx => hA hx.2), if_neg hB]
      exact ⟨iff_of_false (fun hx => Route.noConfusion hx) hA, fun _ => rfl⟩
  · intro sb env idx st hr
    unfold HandleOne
    rw [hr]
    rfl
  · intro sb env idx st hr
    unfold HandleOne
    rw [hr]
    rfl

/-- Witness for C7: `GET` with three tokens is a wrong-number failure. -/
theorem c7_arity_check_w :
    RouteOf ["get", "a", "b"] = Route.wrongNumber :=
  (((c7_arity_check "get" ["a", "b"] ⟨"get", 2, .READ⟩ (by rfl)).1
      (by decide)).1).mpr (by decide)

/-- C6: a launched block issues its asynchronous flush iff at least one of
its operations was applied to the session successfully; when none was, the
block only emits the per-operation apply failures (no flush, no `Done`
responses), and in either case the successor is launched afterwards. -/
theorem c6_flush_iff_some_apply_ok (env : BatchEnv) (bid : Nat) (b : Block) :
    (Event.flush bid ∈ blockEvents env bid b ↔
       ∃ o ∈ b.ops, env.applyErr o.index = none) ∧
    ((∀ o ∈ b.ops, (env.applyErr o.index).isSome) →
       blockEvents env bid b =
         b.ops.filterMap
           (fun o =>
             (env.applyErr o.index).map (fun m => Event.respF o.index m))) ∧
    (∀ blocks fuel, chainTrace env blocks (some bid) (fuel + 1) =
       blockEvents env bid (blocks.getD bid default) ++
       chainTrace env blocks (blocks.getD bid default).next fuel) := by
  refine ⟨?_, ?_, ?_⟩
  · unfold blockEvents
    by_cases hE : (b.ops.filter fun o => decide (env.applyErr o.index = none)).isEmpty
    · rw [if_pos hE]
      simp only [List.isEmpty_iff, List.filter_eq_nil_iff,
        decide_eq_true_eq] at hE
      simp only [List.mem_filterMap, Option.map_eq_some']
      constructor
      · rintro ⟨o, -, m, -, hfe⟩
        exact absurd hfe (by simp)
      · rintro ⟨o, ho, hnone⟩
        exact absurd hnone (hE o ho)
    · rw [if_neg hE]
      constructor
      · intro
        simp only [List.isEmpty_iff, List.filter_eq_nil_iff,
          decide_eq_true_eq] at hE
        push_neg at hE
        obtain ⟨o, ho, hok⟩ := hE
        exact ⟨o, ho, hok⟩
      · intro
        simp [List.mem_append]
  · intro hAll
    unfold blockEvents
    have hnil : (b.ops.filter fun o => decide (env.applyErr o.index = none)) = [] := by
      apply List.filter_eq_nil_iff.mpr
      intro o ho
      have hs := hAll o ho
      simp only [Option.isSome_iff_ne_none] at hs
      simp [hs]
    rw [if_pos (by simp [hnil])]
  · intro blocks fuel
    rfl

/-- Witness for C6: a block whose only operation is rejected emits just
the apply failure — no flush — as derived from the C6 theorem. -/
theorem c6_flush_iff_some_apply_ok_w :
    blockEvents envAllApplyFail 7 blkOneOp = [Event.respF 0 "rejected"] :=
  (c6_flush_iff_some_apply_ok envAllApplyFail 7 blkOneOp).2.1 (by decide)

end RedisService

namespace RedisService

/-! List helper lemmas. -/

theorem getD_set_self {α : Type} {l : List α} {i : Nat} (h : i < l.length)
    (b d : α) : (l.set i b).getD i d = b := by
  induction l generalizing i with
  | nil => simp at h
  | cons a t ih =>
    cases i with
    | zero => rfl
    | succ j => exact ih (by simpa using h)

theorem getD_set_ne {α : Type} {l : List α} {i j : Nat} (h : i ≠ j)
    (b d : α) : (l.set i b).getD j d = l.getD j d := by
  induction l generalizing i j with
  | nil => rfl
  | cons a t ih =>
    cases i with
    | zero =>
      cases j with
      | zero => exact absurd rfl h
      | succ j' => rfl
    | succ i' =>
      cases j with
      | zero => rfl
      | succ j' => exact ih (fun he => h (by rw [he]))

theorem getD_append_left {α : Type} {l l2 : List α} {i : Nat}
    (h : i < l.length) (d : α) : (l ++ l2).getD i d = l.getD i d := by
  induction l generalizing i with
  | nil => simp at h
  | cons a t ih =>
    cases i with
    | zero => rfl
    | succ j => exact ih (by simpa using h)

theorem getD_append_right_self {α : Type} {l : List α} (b d : α) :
    (l ++ [b]).getD l.length d = b := by
  induction l with
  | nil => rfl
  | cons a t ih => exact ih

theorem getD_mem_of_lt {α : Type} {l : List α} {i : Nat} (h : i < l.length)
    {d : α} : l.getD i d ∈ l := by
  induction l generalizing i with
  | nil => simp at h
  | cons a t ih =>
    cases i with
    | zero => exact List.mem_cons_self a t
    | succ j => exact List.mem_cons_of_mem a (ih (by simpa using h))

theorem mem_iff_getD {α : Type} {l : List α} {x : α} (d : α) :
    x ∈ l ↔ ∃ i, i < l.length ∧ l.getD i d = x := by
  constructor
  · intro hx
    induction l with
    | nil => simp at hx
    | cons a t ih =>
      rcases List.mem_cons.mp hx with h | h
      · exact ⟨0, by simp, h.symm⟩
      · obtain ⟨i, hi, he⟩ := ih h
        exact ⟨i + 1, by simpa using hi, he⟩
  · rintro ⟨i, hi, rfl⟩
    exact getD_mem_of_lt hi

theorem nodup_getD_inj {α : Type} {l : List α} (h : l.Nodup) {i j : Nat}
    (hi : i < l.length) (hj : j < l.length) (d : α)
    (he : l.getD i d = l.getD j d) : i = j := by
  have h1 : l.getD i d = l.get ⟨i, hi⟩ := by
    simp [List.getD_eq_getElem?_getD, List.getElem?_eq_getElem hi]
  have h2 : l.getD j d = l.get ⟨j, hj⟩ := by
    simp [List.getD_eq_getElem?_getD, List.getElem?_eq_getElem hj]
  rw [h1, h2] at he
  simp only [List.get_eq_getElem] at he
  exact (List.Nodup.getElem_inj_iff h).mp he

/-! Scheduler state update lemmas. -/

@[simp]
theorem getData_setData_self (s : SchedState) (r : Bool) (d : BlockData) :
    (s.setData r d).getData r = d := by
  cases r <;> rfl

@[simp]
theorem getData_setData_not (s : SchedState) (r : Bool) (d : BlockData) :
    (s.setData r d).getData (!r) = s.getData (!r) := by
  cases r <;> rfl

theorem getData_setData_ne (s : SchedState) {r b : Bool} (h : b ≠ r)
    (d : BlockData) : (s.setData r d).getData b = s.getData b := by
  cases r <;> cases b <;> first | rfl | exact absurd rfl h

@[simp]
theorem setData_blocks (s : SchedState) (r : Bool) (d : BlockData) :
    (s.setData r d).blocks = s.blocks := by
  cases r <;> rfl

@[simp]
theorem setData_flushHead (s : SchedState) (r : Bool) (d : BlockData) :
    (s.setData r d).flushHead = s.flushHead := by
  cases r <;> rfl

@[simp]
theorem setData_lc (s : SchedState) (r : Bool) (d : BlockData) :
    (s.setData r d).lastConflictWasRead = s.lastConflictWasRead := by
  cases r <;> rfl

@[simp]
theorem setData_dfatal (s : SchedState) (r : Bool) (d : BlockData) :
    (s.setData r d).dfatalCount = s.dfatalCount := by
  cases r <;> rfl

@[simp]
theorem getData_update_blocks (s : SchedState) (bs : List Block) (r : Bool) :
    ({ s with blocks := bs }).getData r = s.getData r := by
  cases r <;> rfl

@[simp]
theorem getData_update_fh (s : SchedState) (x : Option Nat) (r : Bool) :
    ({ s with flushHead := x }).getData r = s.getData r := by
  cases r <;> rfl

@[simp]
theorem getData_update_lc (s : SchedState) (x : Option Bool) (r : Bool) :
    ({ s with lastConflictWasRead := x }).getData r = s.getData r := by
  cases r <;> rfl

@[simp]
theorem getData_update_dfatal (s : SchedState) (x : Nat) (r : Bool) :
    ({ s with dfatalCount := x }).getData r = s.getData r := by
  cases r <;> rfl

@[simp]
theorem addOp_length (blocks : List Block) (bid : Nat) (o : Operation) :
    (addOp blocks bid o).length = blocks.length := by
  simp [addOp]

theorem addOp_getD_self {blocks : List Block} {bid : Nat}
    (h : bid < blocks.length) (o : Operation) :
    (addOp blocks bid o).getD bid default =
      { blocks.getD bid default with
          ops := (blocks.getD bid default).ops ++ [o] } := by
  simpa [addOp] using getD_set_self (l := blocks) h _ default

theorem addOp_getD_ne {blocks : List Block} {bid j : Nat} (h : bid ≠ j)
    (o : Operation) :
    (addOp blocks bid o).getD j default = blocks.getD j default := by
  simpa [addOp] using getD_set_ne (l := blocks) h _ default

theorem addOp_next (blocks : List Block) (bid j : Nat) (o : Operation) :
    ((addOp blocks bid o).getD j default).next =
      (blocks.getD j default).next := by
  by_cases hb : bid = j
  · subst hb
    by_cases hlt : bid < blocks.length
    · rw [addOp_getD_self hlt]
    · simp [addOp, List.set_eq_of_length_le (Nat.le_of_not_lt hlt)]
  · rw [addOp_getD_ne hb]

/-! Characterizations of `CheckConflicts`, `ConflictFound` and
`SchedApply` on the branch taken. -/

theorem checkConflicts_skip {s : SchedState} {r : Bool}
    (h : s.lastConflictWasRead = some r) (ks : List String) :
    CheckConflicts r ks s = s := by
  unfold CheckConflicts
  rw [if_pos h]

theorem checkConflicts_noconf {s : SchedState} {r : Bool} {ks : List String}
    (h : ¬ s.lastConflictWasRead = some r)
    (hc : ks.any (fun k => (s.getData (!r)).usedKeys.contains k) = false) :
    CheckConflicts r ks s = s := by
  unfold CheckConflicts
  rw [if_neg h, if_neg (by rw [hc]; exact Bool.false_ne_true)]

theorem checkConflicts_conf {s : SchedState} {r : Bool} {ks : List String}
    (h : ¬ s.lastConflictWasRead = some r)
    (hc : ks.any (fun k => (s.getData (!r)).usedKeys.contains k) = true) :
    CheckConflicts r ks s = ConflictFound r s := by
  unfold CheckConflicts
  rw [if_neg h, if_pos hc]

theorem conflictFound_first {s : SchedState} {r : Bool} {oid : Nat}
    (hlc : s.lastConflictWasRead = none)
    (hopp : (s.getData (!r)).block = some oid) :
    ConflictFound r s =
      { s with
          blocks := s.blocks.set oid
            { s.blocks.getD oid default with next := (s.getData r).block },
          flushHead := some oid,
          lastConflictWasRead := some r } := by
  obtain ⟨B, rd, wd, fh, lc, df⟩ := s
  simp only [SchedState.lastConflictWasRead] at hlc
  subst hlc
  cases r <;>
    simp_all [ConflictFound, SchedState.getData, setNextB]

theorem conflictFound_flip {s : SchedState} {r : Bool} {l : Bool}
    (hlc : s.lastConflictWasRead = some l) :
    ConflictFound r s =
      { s.setData r ⟨[], none⟩ with lastConflictWasRead := some r } := by
  obtain ⟨B, rd, wd, fh, lc, df⟩ := s
  simp only [SchedState.lastConflictWasRead] at hlc
  subst hlc
  cases r <;> rfl

end RedisService

namespace RedisService

theorem set_append_of_lt {α : Type} {l l2 : List α} {i : Nat}
    (h : i < l.length) (b : α) : (l ++ l2).set i b = l.set i b ++ l2 := by
  induction l generalizing i with
  | nil => simp at h
  | cons a t ih =>
    cases i with
    | zero => rfl
    | succ j =>
      have hj : j < t.length := by simpa using h
      show a :: (t ++ l2).set j b = a :: (t.set j b ++ l2)
      rw [ih hj]

theorem set_append_self {α : Type} (l : List α) (e b : α) :
    (l ++ [e]).set l.length b = l ++ [b] := by
  induction l with
  | nil => rfl
  | cons a t ih => simp [ih]

theorem addOp_append_fresh (l : List Block) (o : Operation) :
    addOp (l ++ [Block.mk [] none]) l.length o = l ++ [Block.mk [o] none] := by
  simp [addOp, getD_append_right_self, set_append_self]

theorem addOp_append_fresh_of {l : List Block} {n : Nat} (h : n = l.length)
    (o : Operation) :
    addOp (l ++ [Block.mk [] none]) n o = l ++ [Block.mk [o] none] := by
  rw [h]
  exact addOp_append_fresh l o

theorem schedApply_existing {s : SchedState} {r : Bool} {ks : List String}
    {bid : Nat} (idx : Nat)
    (hcc : CheckConflicts r ks s = s)
    (hblk : (s.getData r).block = some bid) :
    SchedApply idx r ks s =
      ({ s with blocks := addOp s.blocks bid ⟨r, idx⟩ }).setData r
        ⟨(s.getData r).usedKeys ++ ks, some bid⟩ := by
  unfold SchedApply
  rw [hcc]
  simp [hblk]

end RedisService

namespace RedisService

theorem update_blocks_setData (x : SchedState) (r : Bool) (d : BlockData)
    (bs : List Block) :
    { x.setData r d with blocks := bs } = ({ x with blocks := bs }).setData r d := by
  cases r <;> rfl

theorem setData_setData (x : SchedState) (r : Bool) (d1 d2 : BlockData) :
    (x.setData r d1).setData r d2 = x.setData r d2 := by
  cases r <;> rfl

theorem schedApply_fresh_noLc {s : SchedState} {r : Bool} {ks : List String}
    (idx : Nat)
    (hcc : CheckConflicts r ks s = s)
    (hblk : (s.getData r).block = none)
    (hlc : ¬ s.lastConflictWasRead = some r) :
    SchedApply idx r ks s =
      ({ s with blocks := s.blocks ++ [Block.mk [⟨r, idx⟩] none] }).setData r
        ⟨(s.getData r).usedKeys ++ ks, some s.blocks.length⟩ := by
  unfold SchedApply
  rw [hcc]
  obtain ⟨B, rd, wd, fh, lc, df⟩ := s
  cases r <;>
    simp_all [SchedState.getData, SchedState.setData, addOp_append_fresh]

end RedisService

namespace RedisService

theorem schedApply_first_conflict_cur {s : SchedState} {r : Bool}
    {ks : List String} {oid c1 : Nat} (idx : Nat)
    (hlc : s.lastConflictWasRead = none)
    (hconf : ks.any (fun k => (s.getData (!r)).usedKeys.contains k) = true)
    (hopp : (s.getData (!r)).block = some oid)
    (hcur : (s.getData r).block = some c1) :
    SchedApply idx r ks s =
      ({ s with
          blocks := addOp
            (s.blocks.set oid
              { s.blocks.getD oid default with next := some c1 })
            c1 ⟨r, idx⟩,
          flushHead := some oid,
          lastConflictWasRead := some r }).setData r
        ⟨(s.getData r).usedKeys ++ ks, some c1⟩ := by
  have hlc' : ¬ s.lastConflictWasRead = some r := by
    rw [hlc]
    exact fun hx => Option.noConfusion hx
  unfold SchedApply
  rw [checkConflicts_conf hlc' hconf, conflictFound_first hlc hopp]
  obtain ⟨B, rd, wd, fh, lc, df⟩ := s
  cases r <;>
    simp_all [SchedState.getData, SchedState.setData]

end RedisService

namespace RedisService

theorem schedApply_first_conflict_nocur {s : SchedState} {r : Bool}
    {ks : List String} {oid : Nat} (idx : Nat)
    (hlc : s.lastConflictWasRead = none)
    (hconf : ks.any (fun k => (s.getData (!r)).usedKeys.contains k) = true)
    (hopp : (s.getData (!r)).block = some oid)
    (hcur : (s.getData r).block = none)
    (hoidlt : oid < s.blocks.length) :
    SchedApply idx r ks s =
      ({ s with
          blocks := (s.blocks.set oid
              { s.blocks.getD oid default with next := some s.blocks.length })
            ++ [Block.mk [⟨r, idx⟩] none],
          flushHead := some oid,
          lastConflictWasRead := some r }).setData r
        ⟨(s.getData r).usedKeys ++ ks, some s.blocks.length⟩ := by
  have hlc' : ¬ s.lastConflictWasRead = some r := by
    rw [hlc]
    exact fun hx => Option.noConfusion hx
  unfold SchedApply
  rw [checkConflicts_conf hlc' hconf, conflictFound_first hlc hopp]
  obtain ⟨B, rd, wd, fh, lc, df⟩ := s
  cases r <;>
    simp_all [SchedState.getData, SchedState.setData, setNextB, List.getD,
      List.getElem?_append_left, List.getElem?_set_self, List.set_set,
      set_append_of_lt, addOp_append_fresh_of, List.length_set, set_append_self]

theorem schedApply_flip {s : SchedState} {r : Bool} {ks : List String}
    {tl : Nat} (idx : Nat)
    (hlc : s.lastConflictWasRead = some (!r))
    (hconf : ks.any (fun k => (s.getData (!r)).usedKeys.contains k) = true)
    (hopp : (s.getData (!r)).block = some tl)
    (htl : (s.blocks.getD tl default).next = none)
    (htllt : tl < s.blocks.length) :
    SchedApply idx r ks s =
      ({ s with
          blocks := (s.blocks.set tl
              { s.blocks.getD tl default with next := some s.blocks.length })
            ++ [Block.mk [⟨r, idx⟩] none],
          lastConflictWasRead := some r }).setData r
        ⟨ks, some s.blocks.length⟩ := by
  have hlc' : ¬ s.lastConflictWasRead = some r := by
    rw [hlc]
    intro hx
    cases r <;> simp at hx
  unfold SchedApply
  rw [checkConflicts_conf hlc' hconf, conflictFound_flip hlc]
  obtain ⟨B, rd, wd, fh, lc, df⟩ := s
  cases r <;>
    simp_all [SchedState.getData, SchedState.setData, setNextB, List.getD,
      List.getElem?_append_left, List.getElem?_set_self, List.set_set,
      set_append_of_lt, addOp_append_fresh_of, List.length_set, set_append_self]

end RedisService

namespace RedisService

theorem any_contains_eq_false {ks l : List String}
    (h : ks.any (fun k => l.contains k) = false) : ∀ κ ∈ ks, κ ∉ l := by
  intro κ hκ hm
  have h2 := List.any_eq_false.mp h κ hκ
  simp only [List.elem_iff] at h2
  exact h2 hm

theorem any_contains_eq_true {ks l : List String}
    (h : ks.any (fun k => l.contains k) = true) : ∃ κ ∈ ks, κ ∈ l := by
  obtain ⟨κ, hκ, hm⟩ := List.any_eq_true.mp h
  simp only [List.elem_iff] at hm
  exact ⟨κ, hκ, hm⟩

theorem bool_ne_not (b : Bool) : ¬(b = !b) := by
  cases b <;> decide

theorem getData_update_blocks_lc (s : SchedState) (bs : List Block)
    (x : Option Bool) (r : Bool) :
    ({ s with blocks := bs, lastConflictWasRead := x }).getData r =
      s.getData r := by
  cases r <;> rfl

theorem sinv_phaseA_fresh {R : Nat → Bool} {K : Nat → List String}
    {applied : List Nat} {s : SchedState} {idx : Nat}
    (inv : SInv R K applied s) (hA : PhaseA R K applied s)
    (fresh : ∀ a ∈ applied, a < idx)
    (hc : (K idx).any
      (fun k => (s.getData (!(R idx))).usedKeys.contains k) = false)
    (hcur : (s.getData (R idx)).block = none) :
    SInv R K (applied ++ [idx])
      (({ s with blocks := s.blocks ++ [Block.mk [⟨R idx, idx⟩] none] }).setData
        (R idx)
        ⟨(s.getData (R idx)).usedKeys ++ K idx, some s.blocks.length⟩) := by
  set r := R idx with hr
  set n := s.blocks.length with hn
  set s' := ({ s with blocks := s.blocks ++ [Block.mk [⟨r, idx⟩] none] }).setData r
      ⟨(s.getData r).usedKeys ++ K idx, some n⟩ with hs'
  have hblocks : s'.blocks = s.blocks ++ [Block.mk [⟨r, idx⟩] none] := by
    simp [hs']
  have hlen : s'.blocks.length = n + 1 := by
    simp [hblocks]
  have hgr : s'.getData r = ⟨(s.getData r).usedKeys ++ K idx, some n⟩ := by
    simp [hs']
  have hgo : ∀ b, b ≠ r → s'.getData b = s.getData b := by
    intro b hb
    simp [hs', getData_setData_ne _ hb]
  have hgetD_lt : ∀ j, j < n → s'.blocks.getD j default = s.blocks.getD j default := by
    intro j hj
    rw [hblocks]
    exact getD_append_left hj default
  have hgetD_n : s'.blocks.getD n default = Block.mk [⟨r, idx⟩] none := by
    rw [hblocks]
    exact getD_append_right_self _ default
  have hlc' : s'.lastConflictWasRead = s.lastConflictWasRead := by
    simp [hs']
  have hfh' : s'.flushHead = s.flushHead := by
    simp [hs']
  have hdf' : s'.dfatalCount = s.dfatalCount := by
    simp [hs']
  have hks : ∀ κ ∈ K idx, κ ∉ (s.getData (!r)).usedKeys :=
    any_contains_eq_false hc
  refine ⟨?_, ?_, ?_, ?_, ?_, ?_, ?_, ?_, ?_, ?_⟩
  · rw [hdf']
    exact inv.dfatal0
  · intro b bid hb
    rw [hlen]
    by_cases hbr : b = r
    · subst hbr
      rw [hgr] at hb
      cases hb
      omega
    · rw [hgo b hbr] at hb
      have := inv.slotValid b bid hb
      omega
  · intro bid hbid
    rw [hlen] at hbid
    by_cases hlt : bid < n
    · rw [hgetD_lt bid hlt]
      exact inv.blockNE bid hlt
    · have : bid = n := by omega
      subst this
      rw [hgetD_n]
      simp
  · intro bid hbid o ho
    rw [hlen] at hbid
    by_cases hlt : bid < n
    · rw [hgetD_lt bid hlt] at ho
      obtain ⟨h1, h2⟩ := inv.opsChar bid hlt o ho
      exact ⟨List.mem_append_left _ h1, h2⟩
    · have : bid = n := by omega
      subst this
      rw [hgetD_n] at ho
      simp only [List.mem_singleton] at ho
      subst ho
      exact ⟨List.mem_append_right _ (List.mem_singleton_self idx), rfl⟩
  · intro i hi
    rcases List.mem_append.mp hi with hi | hi
    · obtain ⟨bid, hbid, o, ho, he⟩ := inv.reg i hi
      refine ⟨bid, by omega, o, ?_, he⟩
      rw [hgetD_lt bid hbid]
      exact ho
    · simp only [List.mem_singleton] at hi
      subst hi
      refine ⟨n, by omega, ⟨r, i⟩, ?_, rfl⟩
      rw [hgetD_n]
      simp
  · intro bid1 bid2 hb1 hb2 o1 ho1 o2 ho2 he
    rw [hlen] at hb1 hb2
    by_cases h1 : bid1 < n <;> by_cases h2 : bid2 < n
    · rw [hgetD_lt bid1 h1] at ho1
      rw [hgetD_lt bid2 h2] at ho2
      exact inv.regU bid1 bid2 h1 h2 o1 ho1 o2 ho2 he
    · have : bid2 = n := by omega
      subst this
      rw [hgetD_lt bid1 h1] at ho1
      rw [hgetD_n] at ho2
      simp only [List.mem_singleton] at ho2
      subst ho2
      have hmem := (inv.opsChar bid1 h1 o1 ho1).1
      have hlt := fresh o1.index hmem
      have he' : o1.index = idx := he
      omega
    · have : bid1 = n := by omega
      subst this
      rw [hgetD_lt bid2 h2] at ho2
      rw [hgetD_n] at ho1
      simp only [List.mem_singleton] at ho1
      subst ho1
      have hmem := (inv.opsChar bid2 h2 o2 ho2).1
      have hlt := fresh o2.index hmem
      have he' : idx = o2.index := he
      omega
    · omega
  · intro b bid hb o ho
    by_cases hbr : b = r
    · subst hbr
      rw [hgr] at hb
      cases hb
      rw [hgetD_n] at ho
      simp only [List.mem_singleton] at ho
      subst ho
      rfl
    · rw [hgo b hbr] at hb
      have hlt := inv.slotValid b bid hb
      rw [hgetD_lt bid hlt] at ho
      exact inv.slotKind b bid hb o ho
  · intro br bw hbr hbw
    cases hrc : r
    · rw [hrc] at hgr hgo
      rw [hgr] at hbw
      cases hbw
      rw [hgo true (by simp)] at hbr
      have := inv.slotValid true br hbr
      omega
    · rw [hrc] at hgr hgo
      rw [hgr] at hbr
      cases hbr
      rw [hgo false (by simp)] at hbw
      have := inv.slotValid false bw hbw
      omega
  · intro b hb
    by_cases hbr : b = r
    · subst hbr
      rw [hgr] at hb
      cases hb
    · rw [hgo b hbr] at hb
      rw [hgo b hbr]
      exact inv.emptySlotKeys b hb
  · left
    refine ⟨?_, ?_, ?_, ?_, ?_, ?_⟩
    · rw [hlc']
      exact hA.lcNone
    · rw [hfh']
      exact hA.fhNone
    · intro bid hbid
      rw [hlen] at hbid
      by_cases hlt : bid < n
      · rw [hgetD_lt bid hlt]
        exact hA.nextNone bid hlt
      · have : bid = n := by omega
        subst this
        rw [hgetD_n]
    · intro bid hbid
      rw [hlen] at hbid
      by_cases hlt : bid < n
      · rcases hA.slotCover bid hlt with hsl | hsl
        · by_cases hbr : true = r
          · rw [← hbr] at hcur
            rw [hcur] at hsl
            cases hsl
          · left
            rw [hgo true hbr]
            exact hsl
        · by_cases hbr : false = r
          · rw [← hbr] at hcur
            rw [hcur] at hsl
            cases hsl
          · right
            rw [hgo false hbr]
            exact hsl
      · have : bid = n := by omega
        subst this
        cases hrc : r
        · right
          rw [hrc] at hgr
          rw [hgr]
        · left
          rw [hrc] at hgr
          rw [hgr]
    · intro i hi κ hκ
      rcases List.mem_append.mp hi with hi | hi
      · have hold := hA.keysTracked i hi κ hκ
        by_cases hRr : R i = r
        · rw [hRr, hgr]
          rw [hRr] at hold
          exact List.mem_append_left _ hold
        · rw [hgo (R i) hRr]
          exact hold
      · simp only [List.mem_singleton] at hi
        subst hi
        rw [← hr, hgr]
        exact List.mem_append_right _ hκ
    · intro i hi j hj hij κ hκ hκj
      rcases List.mem_append.mp hi with hi | hi <;>
        rcases List.mem_append.mp hj with hj | hj
      · exact hA.noPair i hi j hj hij κ hκ hκj
      · simp only [List.mem_singleton] at hj
        subst j
        rw [← hr] at hij
        have hRi : R i = !r := by
          rw [hij]
        have hkt := hA.keysTracked i hi κ hκ
        rw [hRi] at hkt
        exact hks κ hκj hkt
      · simp only [List.mem_singleton] at hi
        subst i
        rw [← hr] at hij
        have hRj : R j = !r := by
          rw [hij]
          simp
        have hkt := hA.keysTracked j hj κ hκj
        rw [hRj] at hkt
        exact absurd hkt (hks κ hκ)
      · simp only [List.mem_singleton] at hi hj
        subst i
        subst j
        rw [← hr] at hij
        exact absurd hij (bool_ne_not r)

end RedisService

namespace RedisService

theorem sinv_phaseA_existing {R : Nat → Bool} {K : Nat → List String}
    {applied : List Nat} {s : SchedState} {idx bid : Nat}
    (inv : SInv R K applied s) (hA : PhaseA R K applied s)
    (fresh : ∀ a ∈ applied, a < idx)
    (hc : (K idx).any
      (fun k => (s.getData (!(R idx))).usedKeys.contains k) = false)
    (hcur : (s.getData (R idx)).block = some bid) :
    SInv R K (applied ++ [idx])
      (({ s with blocks := addOp s.blocks bid ⟨R idx, idx⟩ }).setData (R idx)
        ⟨(s.getData (R idx)).usedKeys ++ K idx, some bid⟩) := by
  set r := R idx with hr
  set n := s.blocks.length with hn
  have hbid_lt : bid < n := inv.slotValid r bid hcur
  set s' := ({ s with blocks := addOp s.blocks bid ⟨r, idx⟩ }).setData r
      ⟨(s.getData r).usedKeys ++ K idx, some bid⟩ with hs'
  have hblocks : s'.blocks = addOp s.blocks bid ⟨r, idx⟩ := by
    simp [hs']
  have hlen : s'.blocks.length = n := by
    simp [hblocks]
  have hgr : s'.getData r = ⟨(s.getData r).usedKeys ++ K idx, some bid⟩ := by
    simp [hs']
  have hgo : ∀ b, b ≠ r → s'.getData b = s.getData b := by
    intro b hb
    simp [hs', getData_setData_ne _ hb]
  have hgetD_ne : ∀ j, j ≠ bid → s'.blocks.getD j default = s.blocks.getD j default := by
    intro j hj
    rw [hblocks]
    exact addOp_getD_ne (fun he => hj he.symm) _
  have hgetD_bid : s'.blocks.getD bid default =
      { s.blocks.getD bid default with
          ops := (s.blocks.getD bid default).ops ++ [⟨r, idx⟩] } := by
    rw [hblocks]
    exact addOp_getD_self hbid_lt _
  have hmem_bid : ∀ o, o ∈ (s'.blocks.getD bid default).ops ↔
      o ∈ (s.blocks.getD bid default).ops ∨ o = ⟨r, idx⟩ := by
    intro o
    rw [hgetD_bid]
    simp
  have hlc' : s'.lastConflictWasRead = s.lastConflictWasRead := by
    simp [hs']
  have hfh' : s'.flushHead = s.flushHead := by
    simp [hs']
  have hdf' : s'.dfatalCount = s.dfatalCount := by
    simp [hs']
  have hks : ∀ κ ∈ K idx, κ ∉ (s.getData (!r)).usedKeys :=
    any_contains_eq_false hc
  have hmem' : ∀ j o, j < n → o ∈ (s'.blocks.getD j default).ops →
      o ∈ (s.blocks.getD j default).ops ∨ (j = bid ∧ o = ⟨r, idx⟩) := by
    intro j o hj ho
    by_cases hjb : j = bid
    · subst hjb
      rcases (hmem_bid o).mp ho with h | h
      · exact Or.inl h
      · exact Or.inr ⟨rfl, h⟩
    · rw [hgetD_ne j hjb] at ho
      exact Or.inl ho
  refine ⟨?_, ?_, ?_, ?_, ?_, ?_, ?_, ?_, ?_, ?_⟩
  · rw [hdf']
    exact inv.dfatal0
  · intro b bid' hb
    rw [hlen]
    by_cases hbr : b = r
    · subst hbr
      rw [hgr] at hb
      cases hb
      exact hbid_lt
    · rw [hgo b hbr] at hb
      exact inv.slotValid b bid' hb
  · intro j hj
    rw [hlen] at hj
    by_cases hjb : j = bid
    · subst hjb
      rw [hgetD_bid]
      simp
    · rw [hgetD_ne j hjb]
      exact inv.blockNE j hj
  · intro j hj o ho
    rw [hlen] at hj
    rcases hmem' j o hj ho with h | ⟨hjb, h⟩
    · obtain ⟨h1, h2⟩ := inv.opsChar j hj o h
      exact ⟨List.mem_append_left _ h1, h2⟩
    · subst h
      exact ⟨List.mem_append_right _ (List.mem_singleton_self idx), rfl⟩
  · intro i hi
    rcases List.mem_append.mp hi with hi | hi
    · obtain ⟨bid', hbid', o, ho, he⟩ := inv.reg i hi
      refine ⟨bid', by omega, o, ?_, he⟩
      by_cases hjb : bid' = bid
      · subst hjb
        exact (hmem_bid o).mpr (Or.inl ho)
      · rw [hgetD_ne bid' hjb]
        exact ho
    · simp only [List.mem_singleton] at hi
      subst hi
      refine ⟨bid, by omega, ⟨r, i⟩, ?_, rfl⟩
      exact (hmem_bid _).mpr (Or.inr rfl)
  · intro bid1 bid2 hb1 hb2 o1 ho1 o2 ho2 he
    rw [hlen] at hb1 hb2
    rcases hmem' bid1 o1 hb1 ho1 with h1 | ⟨hjb1, h1⟩ <;>
      rcases hmem' bid2 o2 hb2 ho2 with h2 | ⟨hjb2, h2⟩
    · exact inv.regU bid1 bid2 hb1 hb2 o1 h1 o2 h2 he
    · subst h2
      have hmem := (inv.opsChar bid1 hb1 o1 h1).1
      have hlt := fresh o1.index hmem
      have he' : o1.index = idx := he
      omega
    · subst h1
      have hmem := (inv.opsChar bid2 hb2 o2 h2).1
      have hlt := fresh o2.index hmem
      have he' : idx = o2.index := he
      omega
    · rw [hjb1, hjb2]
  · intro b bid' hb o ho
    by_cases hbr : b = r
    · subst hbr
      rw [hgr] at hb
      cases hb
      rcases (hmem_bid o).mp ho with h | h
      · exact inv.slotKind r bid hcur o h
      · subst h
        rfl
    · rw [hgo b hbr] at hb
      have hneq : bid' ≠ bid := by
        intro he2
        subst he2
        cases hbb : r
        · rw [hbb] at hcur
          have hbt : b = true := by
            cases b
            · exact absurd rfl (by rw [hbb] at hbr; exact hbr)
            · rfl
          rw [hbt] at hb
          exact absurd rfl (inv.slotsNe bid' bid' hb hcur)
        · rw [hbb] at hcur
          have hbt : b = false := by
            cases b
            · rfl
            · exact absurd rfl (by rw [hbb] at hbr; exact hbr)
          rw [hbt] at hb
          exact absurd rfl (inv.slotsNe bid' bid' hcur hb)
      rw [hgetD_ne bid' hneq] at ho
      exact inv.slotKind b bid' hb o ho
  · intro br bw hbr hbw
    cases hrc : r
    · rw [hrc] at hgr hgo hcur
      rw [hgr] at hbw
      obtain rfl : bid = bw := Option.some.inj hbw
      rw [hgo true (by simp)] at hbr
      exact inv.slotsNe br bid hbr hcur
    · rw [hrc] at hgr hgo hcur
      rw [hgr] at hbr
      obtain rfl : bid = br := Option.some.inj hbr
      rw [hgo false (by simp)] at hbw
      exact inv.slotsNe bid bw hcur hbw
  · intro b hb
    by_cases hbr : b = r
    · subst hbr
      rw [hgr] at hb
      cases hb
    · rw [hgo b hbr] at hb
      rw [hgo b hbr]
      exact inv.emptySlotKeys b hb
  · left
    refine ⟨?_, ?_, ?_, ?_, ?_, ?_⟩
    · rw [hlc']
      exact hA.lcNone
    · rw [hfh']
      exact hA.fhNone
    · intro j hj
      rw [hlen] at hj
      rw [hblocks, addOp_next]
      exact hA.nextNone j hj
    · intro j hj
      rw [hlen] at hj
      rcases hA.slotCover j hj with hsl | hsl
      · left
        cases hrc : r
        · rw [hrc] at hgo
          rw [hgo true (by simp)]
          exact hsl
        · rw [hrc] at hgr hcur
          rw [hcur] at hsl
          rw [hgr]
          exact hsl
      · right
        cases hrc : r
        · rw [hrc] at hgr hcur
          rw [hcur] at hsl
          rw [hgr]
          exact hsl
        · rw [hrc] at hgo
          rw [hgo false (by simp)]
          exact hsl
    · intro i hi κ hκ
      rcases List.mem_append.mp hi with hi | hi
      · have hold := hA.keysTracked i hi κ hκ
        by_cases hRr : R i = r
        · rw [hRr, hgr]
          rw [hRr] at hold
          exact List.mem_append_left _ hold
        · rw [hgo (R i) hRr]
          exact hold
      · simp only [List.mem_singleton] at hi
        subst hi
        rw [← hr, hgr]
        exact List.mem_append_right _ hκ
    · intro i hi j hj hij κ hκ hκj
      rcases List.mem_append.mp hi with hi | hi <;>
        rcases List.mem_append.mp hj with hj | hj
      · exact hA.noPair i hi j hj hij κ hκ hκj
      · simp only [List.mem_singleton] at hj
        subst j
        rw [← hr] at hij
        have hRi : R i = !r := by
          rw [hij]
        have hkt := hA.keysTracked i hi κ hκ
        rw [hRi] at hkt
        exact hks κ hκj hkt
      · simp only [List.mem_singleton] at hi
        subst i
        rw [← hr] at hij
        have hRj : R j = !r := by
          rw [hij]
          simp
        have hkt := hA.keysTracked j hj κ hκj
        rw [hRj] at hkt
        exact absurd hkt (hks κ hκ)
      · simp only [List.mem_singleton] at hi hj
        subst i
        subst j
        rw [← hr] at hij
        exact absurd hij (bool_ne_not r)

end RedisService

namespace RedisService

theorem bool_eq_not_of_ne {b r : Bool} (h : b ≠ r) : b = !r := by
  cases b <;> cases r <;> simp_all

theorem links_iff_pos (blocks : List Block) (ch : List Nat) :
    Links blocks ch ↔
      ((∀ t, t + 1 < ch.length →
          (blocks.getD (ch.getD t 0) default).next = some (ch.getD (t + 1) 0)) ∧
       (ch ≠ [] →
          (blocks.getD (ch.getD (ch.length - 1) 0) default).next = none)) := by
  induction ch with
  | nil => simp [Links]
  | cons a rest ih =>
    cases rest with
    | nil =>
      simp [Links]
    | cons b rest2 =>
      rw [Links]
      rw [ih]
      constructor
      · rintro ⟨h1, h2, h3⟩
        refine ⟨?_, ?_⟩
        · intro t ht
          cases t with
          | zero => exact h1
          | succ t' => exact h2 t' (by simpa using ht)
        · intro
          have := h3 (by simp)
          simpa using this
      · rintro ⟨h1, h2⟩
        refine ⟨h1 0 (by simp), ?_, ?_⟩
        · intro t ht
          exact h1 (t + 1) (by simpa using ht)
        · intro
          have := h2 (by simp)
          simpa using this

theorem links_of_next_eq {b1 b2 : List Block}
    (h : ∀ j, (b2.getD j default).next = (b1.getD j default).next)
    {ch : List Nat} (hl : Links b1 ch) : Links b2 ch := by
  rw [links_iff_pos] at hl ⊢
  refine ⟨?_, ?_⟩
  · intro t ht
    rw [h]
    exact hl.1 t ht
  · intro hne
    rw [h]
    exact hl.2 hne

theorem sinv_existing_general {R : Nat → Bool} {K : Nat → List String}
    {applied : List Nat} {s : SchedState} {idx bid : Nat}
    (inv : SInv R K applied s)
    (fresh : ∀ a ∈ applied, a < idx)
    (hcur : (s.getData (R idx)).block = some bid)
    (hphase :
      PhaseA R K (applied ++ [idx])
        (({ s with blocks := addOp s.blocks bid ⟨R idx, idx⟩ }).setData (R idx)
          ⟨(s.getData (R idx)).usedKeys ++ K idx, some bid⟩) ∨
      ∃ l ch, PhaseB R K (applied ++ [idx])
        (({ s with blocks := addOp s.blocks bid ⟨R idx, idx⟩ }).setData (R idx)
          ⟨(s.getData (R idx)).usedKeys ++ K idx, some bid⟩) l ch) :
    SInv R K (applied ++ [idx])
      (({ s with blocks := addOp s.blocks bid ⟨R idx, idx⟩ }).setData (R idx)
        ⟨(s.getData (R idx)).usedKeys ++ K idx, some bid⟩) := by
  set r := R idx with hr
  set n := s.blocks.length with hn
  have hbid_lt : bid < n := inv.slotValid r bid hcur
  set s' := ({ s with blocks := addOp s.blocks bid ⟨r, idx⟩ }).setData r
      ⟨(s.getData r).usedKeys ++ K idx, some bid⟩ with hs'
  have hblocks : s'.blocks = addOp s.blocks bid ⟨r, idx⟩ := by
    simp [hs']
  have hlen : s'.blocks.length = n := by
    simp [hblocks]
  have hgr : s'.getData r = ⟨(s.getData r).usedKeys ++ K idx, some bid⟩ := by
    simp [hs']
  have hgo : ∀ b, b ≠ r → s'.getData b = s.getData b := by
    intro b hb
    simp [hs', getData_setData_ne _ hb]
  have hgetD_ne : ∀ j, j ≠ bid →
      s'.blocks.getD j default = s.blocks.getD j default := by
    intro j hj
    rw [hblocks]
    exact addOp_getD_ne (fun he => hj he.symm) _
  have hgetD_bid : s'.blocks.getD bid default =
      { s.blocks.getD bid default with
          ops := (s.blocks.getD bid default).ops ++ [⟨r, idx⟩] } := by
    rw [hblocks]
    exact addOp_getD_self hbid_lt _
  have hmem_bid : ∀ o, o ∈ (s'.blocks.getD bid default).ops ↔
      o ∈ (s.blocks.getD bid default).ops ∨ o = ⟨r, idx⟩ := by
    intro o
    rw [hgetD_bid]
    simp
  have hdf' : s'.dfatalCount = s.dfatalCount := by
    simp [hs']
  have hmem' : ∀ j o, o ∈ (s'.blocks.getD j default).ops →
      o ∈ (s.blocks.getD j default).ops ∨ (j = bid ∧ o = ⟨r, idx⟩) := by
    intro j o ho
    by_cases hjb : j = bid
    · subst hjb
      rcases (hmem_bid o).mp ho with h | h
      · exact Or.inl h
      · exact Or.inr ⟨rfl, h⟩
    · rw [hgetD_ne j hjb] at ho
      exact Or.inl ho
  refine ⟨?_, ?_, ?_, ?_, ?_, ?_, ?_, ?_, ?_, hphase⟩
  · rw [hdf']
    exact inv.dfatal0
  · intro b bid' hb
    rw [hlen]
    by_cases hbr : b = r
    · subst hbr
      rw [hgr] at hb
      cases hb
      exact hbid_lt
    · rw [hgo b hbr] at hb
      exact inv.slotValid b bid' hb
  · intro j hj
    rw [hlen] at hj
    by_cases hjb : j = bid
    · subst hjb
      rw [hgetD_bid]
      simp
    · rw [hgetD_ne j hjb]
      exact inv.blockNE j hj
  · intro j hj o ho
    rw [hlen] at hj
    rcases hmem' j o ho with h | ⟨hjb, h⟩
    · obtain ⟨h1, h2⟩ := inv.opsChar j hj o h
      exact ⟨List.mem_append_left _ h1, h2⟩
    · subst h
      exact ⟨List.mem_append_right _ (List.mem_singleton_self idx), rfl⟩
  · intro i hi
    rcases List.mem_append.mp hi with hi | hi
    · obtain ⟨bid', hbid', o, ho, he⟩ := inv.reg i hi
      refine ⟨bid', by omega, o, ?_, he⟩
      by_cases hjb : bid' = bid
      · subst hjb
        exact (hmem_bid o).mpr (Or.inl ho)
      · rw [hgetD_ne bid' hjb]
        exact ho
    · simp only [List.mem_singleton] at hi
      subst hi
      refine ⟨bid, by omega, ⟨r, i⟩, ?_, rfl⟩
      exact (hmem_bid _).mpr (Or.inr rfl)
  · intro bid1 bid2 hb1 hb2 o1 ho1 o2 ho2 he
    rw [hlen] at hb1 hb2
    rcases hmem' bid1 o1 ho1 with h1 | ⟨hjb1, h1⟩ <;>
      rcases hmem' bid2 o2 ho2 with h2 | ⟨hjb2, h2⟩
    · exact inv.regU bid1 bid2 hb1 hb2 o1 h1 o2 h2 he
    · subst h2
      have hmem2 := (inv.opsChar bid1 hb1 o1 h1).1
      have hlt := fresh o1.index hmem2
      have he' : o1.index = idx := he
      omega
    · subst h1
      have hmem2 := (inv.opsChar bid2 hb2 o2 h2).1
      have hlt := fresh o2.index hmem2
      have he' : idx = o2.index := he
      omega
    · rw [hjb1, hjb2]
  · intro b bid' hb o ho
    by_cases hbr : b = r
    · subst hbr
      rw [hgr] at hb
      cases hb
      rcases (hmem_bid o).mp ho with h | h
      · exact inv.slotKind r bid hcur o h
      · subst h
        rfl
    · rw [hgo b hbr] at hb
      have hneq : bid' ≠ bid := by
        intro he2
        subst he2
        cases hbb : r
        · rw [hbb] at hcur
          have hbt : b = true := by
            cases b
            · exact absurd rfl (by rw [hbb] at hbr; exact hbr)
            · rfl
          rw [hbt] at hb
          exact absurd rfl (inv.slotsNe bid' bid' hb hcur)
        · rw [hbb] at hcur
          have hbt : b = false := by
            cases b
            · rfl
            · exact absurd rfl (by rw [hbb] at hbr; exact hbr)
          rw [hbt] at hb
          exact absurd rfl (inv.slotsNe bid' bid' hcur hb)
      rw [hgetD_ne bid' hneq] at ho
      exact inv.slotKind b bid' hb o ho
  · intro br bw hbr hbw
    cases hrc : r
    · rw [hrc] at hgr hgo hcur
      rw [hgr] at hbw
      obtain rfl : bid = bw := Option.some.inj hbw
      rw [hgo true (by simp)] at hbr
      exact inv.slotsNe br bid hbr hcur
    · rw [hrc] at hgr hgo hcur
      rw [hgr] at hbr
      obtain rfl : bid = br := Option.some.inj hbr
      rw [hgo false (by simp)] at hbw
      exact inv.slotsNe bid bw hcur hbw
  · intro b hb
    by_cases hbr : b = r
    · subst hbr
      rw [hgr] at hb
      cases hb
    · rw [hgo b hbr] at hb
      rw [hgo b hbr]
      exact inv.emptySlotKeys b hb

end RedisService

namespace RedisService

theorem sinv_phaseB_tail {R : Nat → Bool} {K : Nat → List String}
    {applied : List Nat} {s : SchedState} {idx : Nat} {l : Bool}
    {ch : List Nat}
    (inv : SInv R K applied s) (hB : PhaseB R K applied s l ch)
    (fresh : ∀ a ∈ applied, a < idx)
    (hrl : R idx = l) :
    SInv R K (applied ++ [idx])
      (({ s with
          blocks := addOp s.blocks (ch.getD (ch.length - 1) 0) ⟨R idx, idx⟩ }).setData
        (R idx)
        ⟨(s.getData (R idx)).usedKeys ++ K idx,
         some (ch.getD (ch.length - 1) 0)⟩) := by
  set r := R idx with hr
  set n := s.blocks.length with hn
  set tl := ch.getD (ch.length - 1) 0 with htl
  have hcur : (s.getData r).block = some tl := by
    rw [hrl]
    exact hB.slotTail
  refine sinv_existing_general inv fresh hcur (Or.inr ⟨l, ch, ?_⟩)
  set s' := ({ s with blocks := addOp s.blocks tl ⟨r, idx⟩ }).setData r
      ⟨(s.getData r).usedKeys ++ K idx, some tl⟩ with hs'
  have hbid_lt : tl < n := inv.slotValid r tl hcur
  have hblocks : s'.blocks = addOp s.blocks tl ⟨r, idx⟩ := by
    simp [hs']
  have hlen : s'.blocks.length = n := by
    simp [hblocks]
  have hgr : s'.getData r = ⟨(s.getData r).usedKeys ++ K idx, some tl⟩ := by
    simp [hs']
  have hgo : ∀ b, b ≠ r → s'.getData b = s.getData b := by
    intro b hb
    simp [hs', getData_setData_ne _ hb]
  have hgetD_ne : ∀ j, j ≠ tl →
      s'.blocks.getD j default = s.blocks.getD j default := by
    intro j hj
    rw [hblocks]
    exact addOp_getD_ne (fun he => hj he.symm) _
  have hgetD_tl : s'.blocks.getD tl default =
      { s.blocks.getD tl default with
          ops := (s.blocks.getD tl default).ops ++ [⟨r, idx⟩] } := by
    rw [hblocks]
    exact addOp_getD_self hbid_lt _
  have hmem' : ∀ j o, o ∈ (s'.blocks.getD j default).ops →
      o ∈ (s.blocks.getD j default).ops ∨ (j = tl ∧ o = ⟨r, idx⟩) := by
    intro j o ho
    by_cases hjb : j = tl
    · subst hjb
      rw [hgetD_tl] at ho
      simp only [List.mem_append, List.mem_singleton] at ho
      rcases ho with h | h
      · exact Or.inl h
      · exact Or.inr ⟨rfl, h⟩
    · rw [hgetD_ne j hjb] at ho
      exact Or.inl ho
  have hlc' : s'.lastConflictWasRead = s.lastConflictWasRead := by
    simp [hs']
  have hfh' : s'.flushHead = s.flushHead := by
    simp [hs']
  have hlnot : (!l) ≠ r := by
    rw [hrl]
    exact fun h => bool_ne_not l h.symm
  have hlen2 := hB.two
  refine ⟨?_, ?_, hB.nodup, ?_, hB.two, ?_, ?_, ?_, ?_, ?_⟩
  · rw [hlc']
    exact hB.lcSome
  · refine links_of_next_eq ?_ hB.links
    intro j
    rw [hblocks, addOp_next]
  · intro bid
    rw [hlen]
    exact hB.cover bid
  · rw [hfh']
    exact hB.fhHead
  · rw [← hrl, hgr]
  · rw [hgo (!l) hlnot]
    exact hB.slotPred
  · intro o ho κ hκ
    rw [← hrl, hgr]
    rcases hmem' tl o ho with h | ⟨-, h⟩
    · have := hB.tailKeys o h κ hκ
      rw [← hrl] at this
      exact List.mem_append_left _ this
    · subst h
      exact List.mem_append_right _ hκ
  · intro t1 t2 ht1 ht2 o1 ho1 o2 ho2 he hop hsh
    rcases hmem' _ o1 ho1 with h1 | ⟨hc1, h1⟩ <;>
      rcases hmem' _ o2 ho2 with h2 | ⟨hc2, h2⟩
    · exact hB.pairOrder t1 t2 ht1 ht2 o1 h1 o2 h2 he hop hsh
    · have ht2e : t2 = ch.length - 1 := by
        refine nodup_getD_inj hB.nodup ht2 (by omega) 0 ?_
        rw [hc2]
      subst h2
      have hne1 : t1 ≠ ch.length - 1 := by
        intro he1
        rw [he1] at ho1
        rcases hmem' _ o1 ho1 with hx | ⟨-, hx⟩
        · have hk := inv.slotKind r tl hcur o1 hx
          rw [hk] at hop
          exact bool_ne_not r hop
        · subst hx
          simp at he
      omega
    · subst h1
      have hm2 := (inv.opsChar _ ((hB.cover _).mp (getD_mem_of_lt ht2)) o2 h2).1
      have hlt2 := fresh o2.index hm2
      have he' : idx < o2.index := he
      omega
    · subst h1
      subst h2
      simp at he

end RedisService

namespace RedisService

theorem sinv_phaseB_pred {R : Nat → Bool} {K : Nat → List String}
    {applied : List Nat} {s : SchedState} {idx : Nat} {l : Bool}
    {ch : List Nat}
    (inv : SInv R K applied s) (hB : PhaseB R K applied s l ch)
    (fresh : ∀ a ∈ applied, a < idx)
    (hrl : R idx = !l)
    (hc : (K idx).any
      (fun k => (s.getData (!(R idx))).usedKeys.contains k) = false) :
    SInv R K (applied ++ [idx])
      (({ s with
          blocks := addOp s.blocks (ch.getD (ch.length - 2) 0) ⟨R idx, idx⟩ }).setData
        (R idx)
        ⟨(s.getData (R idx)).usedKeys ++ K idx,
         some (ch.getD (ch.length - 2) 0)⟩) := by
  set r := R idx with hr
  set n := s.blocks.length with hn
  set pd := ch.getD (ch.length - 2) 0 with hpd
  set tl := ch.getD (ch.length - 1) 0 with htl
  have hnotr : (!r) = l := by
    rw [hrl]
    simp
  have hcur : (s.getData r).block = some pd := by
    rw [hrl]
    exact hB.slotPred
  have hkey : ∀ κ ∈ K idx, κ ∉ (s.getData l).usedKeys := by
    have := any_contains_eq_false hc
    rw [hnotr] at this
    exact this
  refine sinv_existing_general inv fresh hcur (Or.inr ⟨l, ch, ?_⟩)
  set s' := ({ s with blocks := addOp s.blocks pd ⟨r, idx⟩ }).setData r
      ⟨(s.getData r).usedKeys ++ K idx, some pd⟩ with hs'
  have hbid_lt : pd < n := inv.slotValid r pd hcur
  have hblocks : s'.blocks = addOp s.blocks pd ⟨r, idx⟩ := by
    simp [hs']
  have hlen : s'.blocks.length = n := by
    simp [hblocks]
  have hgr : s'.getData r = ⟨(s.getData r).usedKeys ++ K idx, some pd⟩ := by
    simp [hs']
  have hgo : ∀ b, b ≠ r → s'.getData b = s.getData b := by
    intro b hb
    simp [hs', getData_setData_ne _ hb]
  have hlner : l ≠ r := by
    rw [hrl]
    exact fun h => bool_ne_not l h
  have hgetD_ne : ∀ j, j ≠ pd →
      s'.blocks.getD j default = s.blocks.getD j default := by
    intro j hj
    rw [hblocks]
    exact addOp_getD_ne (fun he => hj he.symm) _
  have hgetD_pd : s'.blocks.getD pd default =
      { s.blocks.getD pd default with
          ops := (s.blocks.getD pd default).ops ++ [⟨r, idx⟩] } := by
    rw [hblocks]
    exact addOp_getD_self hbid_lt _
  have hmem' : ∀ j o, o ∈ (s'.blocks.getD j default).ops →
      o ∈ (s.blocks.getD j default).ops ∨ (j = pd ∧ o = ⟨r, idx⟩) := by
    intro j o ho
    by_cases hjb : j = pd
    · subst hjb
      rw [hgetD_pd] at ho
      simp only [List.mem_append, List.mem_singleton] at ho
      rcases ho with h | h
      · exact Or.inl h
      · exact Or.inr ⟨rfl, h⟩
    · rw [hgetD_ne j hjb] at ho
      exact Or.inl ho
  have hlc' : s'.lastConflictWasRead = s.lastConflictWasRead := by
    simp [hs']
  have hfh' : s'.flushHead = s.flushHead := by
    simp [hs']
  have hlen2 := hB.two
  have htlpd : tl ≠ pd := by
    intro he
    have : ch.length - 1 = ch.length - 2 :=
      nodup_getD_inj hB.nodup (by omega) (by omega) 0 he
    omega
  refine ⟨?_, ?_, hB.nodup, ?_, hB.two, ?_, ?_, ?_, ?_, ?_⟩
  · rw [hlc']
    exact hB.lcSome
  · refine links_of_next_eq ?_ hB.links
    intro j
    rw [hblocks, addOp_next]
  · intro bid
    rw [hlen]
    exact hB.cover bid
  · rw [hfh']
    exact hB.fhHead
  · rw [hgo l hlner]
    exact hB.slotTail
  · have h2 : (!l) = r := by
      rw [hrl]
    rw [h2, hgr]
  · intro o ho κ hκ
    rw [hgo l hlner]
    rw [hgetD_ne tl htlpd] at ho
    exact hB.tailKeys o ho κ hκ
  · intro t1 t2 ht1 ht2 o1 ho1 o2 ho2 he hop hsh
    rcases hmem' _ o1 ho1 with h1 | ⟨hc1, h1⟩ <;>
      rcases hmem' _ o2 ho2 with h2 | ⟨hc2, h2⟩
    · exact hB.pairOrder t1 t2 ht1 ht2 o1 h1 o2 h2 he hop hsh
    · have ht2e : t2 = ch.length - 2 := by
        refine nodup_getD_inj hB.nodup ht2 (by omega) 0 ?_
        rw [hc2]
      subst h2
      have hop1 : o1.read = l := by
        have : o1.read = !r := hop
        rw [this, hnotr]
      have hne1 : t1 ≠ ch.length - 1 := by
        intro he1
        rw [he1] at ho1
        rcases hmem' _ o1 ho1 with hx | ⟨hcx, -⟩
        · obtain ⟨κ, hκ1, hκ2⟩ := hsh
          have := hB.tailKeys o1 (by rw [← hgetD_ne tl htlpd]; exact ho1) κ hκ1
          exact hkey κ hκ2 this
        · exact htlpd hcx
      have hne2 : t1 ≠ ch.length - 2 := by
        intro he1
        rw [he1] at ho1
        rcases hmem' _ o1 ho1 with hx | ⟨-, hx⟩
        · have hk := inv.slotKind r pd hcur o1 hx
          rw [hk] at hop1
          rw [← hop1] at hrl
          exact bool_ne_not r hrl
        · subst hx
          simp at he
      omega
    · subst h1
      have hm2 := (inv.opsChar _ ((hB.cover _).mp (getD_mem_of_lt ht2)) o2 h2).1
      have hlt2 := fresh o2.index hm2
      have he' : idx < o2.index := he
      omega
    · subst h1
      subst h2
      simp at he

end RedisService

namespace RedisService

theorem sinv_phaseB_flip {R : Nat → Bool} {K : Nat → List String}
    {applied : List Nat} {s : SchedState} {idx : Nat} {l : Bool}
    {ch : List Nat}
    (inv : SInv R K applied s) (hB : PhaseB R K applied s l ch)
    (fresh : ∀ a ∈ applied, a < idx)
    (hrl : R idx = !l) :
    SInv R K (applied ++ [idx])
      (({ s with
          blocks := (s.blocks.set (ch.getD (ch.length - 1) 0)
              { s.blocks.getD (ch.getD (ch.length - 1) 0) default with
                  next := some s.blocks.length })
            ++ [Block.mk [⟨R idx, idx⟩] none],
          lastConflictWasRead := some (R idx) }).setData (R idx)
        ⟨K idx, some s.blocks.length⟩) := by
  set r := R idx with hr
  set n := s.blocks.length with hn
  set tl := ch.getD (ch.length - 1) 0 with htl
  have hlen2 := hB.two
  have htl_lt : tl < n := inv.slotValid l tl hB.slotTail
  have hlner : l ≠ r := by
    rw [hrl]
    exact fun h => bool_ne_not l h
  have hnotr : (!r) = l := by
    rw [hrl]
    simp
  set X := { s.blocks.getD tl default with next := some n } with hX
  set s' := ({ s with
      blocks := (s.blocks.set tl X) ++ [Block.mk [⟨r, idx⟩] none],
      lastConflictWasRead := some r }).setData r ⟨K idx, some n⟩ with hs'
  have hblocks : s'.blocks = (s.blocks.set tl X) ++ [Block.mk [⟨r, idx⟩] none] := by
    simp [hs']
  have hlen : s'.blocks.length = n + 1 := by
    simp [hblocks]
  have hgr : s'.getData r = ⟨K idx, some n⟩ := by
    simp [hs']
  have hgo : ∀ b, b ≠ r → s'.getData b = s.getData b := by
    intro b hb
    simp [hs', getData_setData_ne _ hb, getData_update_blocks_lc]
  have hgetD_old : ∀ j, j < n → j ≠ tl →
      s'.blocks.getD j default = s.blocks.getD j default := by
    intro j hj hjtl
    rw [hblocks, getD_append_left (by simpa using hj), getD_set_ne (fun he => hjtl he.symm)]
  have hgetD_tl : s'.blocks.getD tl default = X := by
    rw [hblocks, getD_append_left (by simpa using htl_lt), getD_set_self (by simpa using htl_lt)]
  have hgetD_n : s'.blocks.getD n default = Block.mk [⟨r, idx⟩] none := by
    rw [hblocks]
    have h2 := getD_append_right_self (l := s.blocks.set tl X)
      (Block.mk [⟨r, idx⟩] none) (default : Block)
    rwa [List.length_set] at h2
  have hops : ∀ j, j < n →
      (s'.blocks.getD j default).ops = (s.blocks.getD j default).ops := by
    intro j hj
    by_cases hjtl : j = tl
    · subst hjtl
      rw [hgetD_tl, hX]
    · rw [hgetD_old j hj hjtl]
  have hnext_tl : (s'.blocks.getD tl default).next = some n := by
    rw [hgetD_tl, hX]
  have hlc' : s'.lastConflictWasRead = some r := by
    simp [hs']
  have hfh' : s'.flushHead = s.flushHead := by
    simp [hs']
  have hdf' : s'.dfatalCount = s.dfatalCount := by
    simp [hs']
  have hchlt : ∀ bid, bid ∈ ch → bid < n := fun bid hb => (hB.cover bid).mp hb
  have hchD_lt : ∀ t, t < ch.length → (ch ++ [n]).getD t 0 = ch.getD t 0 :=
    fun t ht => getD_append_left ht 0
  have hchD_n : (ch ++ [n]).getD ch.length 0 = n := getD_append_right_self n 0
  refine ⟨?_, ?_, ?_, ?_, ?_, ?_, ?_, ?_, ?_, ?_⟩
  · rw [hdf']
    exact inv.dfatal0
  · intro b bid hb
    rw [hlen]
    by_cases hbr : b = r
    · subst hbr
      rw [hgr] at hb
      cases hb
      omega
    · rw [hgo b hbr] at hb
      have := inv.slotValid b bid hb
      omega
  · intro j hj
    rw [hlen] at hj
    by_cases hjn : j < n
    · rw [hops j hjn]
      exact inv.blockNE j hjn
    · have : j = n := by omega
      subst this
      rw [hgetD_n]
      simp
  · intro j hj o ho
    rw [hlen] at hj
    by_cases hjn : j < n
    · rw [hops j hjn] at ho
      obtain ⟨h1, h2⟩ := inv.opsChar j hjn o ho
      exact ⟨List.mem_append_left _ h1, h2⟩
    · have : j = n := by omega
      subst this
      rw [hgetD_n] at ho
      simp only [List.mem_singleton] at ho
      subst ho
      exact ⟨List.mem_append_right _ (List.mem_singleton_self idx), rfl⟩
  · intro i hi
    rcases List.mem_append.mp hi with hi | hi
    · obtain ⟨bid, hbid, o, ho, he⟩ := inv.reg i hi
      refine ⟨bid, by omega, o, ?_, he⟩
      rw [hops bid hbid]
      exact ho
    · simp only [List.mem_singleton] at hi
      subst hi
      refine ⟨n, by omega, ⟨r, i⟩, ?_, rfl⟩
      rw [hgetD_n]
      simp
  · intro bid1 bid2 hb1 hb2 o1 ho1 o2 ho2 he
    rw [hlen] at hb1 hb2
    by_cases h1 : bid1 < n <;> by_cases h2 : bid2 < n
    · rw [hops bid1 h1] at ho1
      rw [hops bid2 h2] at ho2
      exact inv.regU bid1 bid2 h1 h2 o1 ho1 o2 ho2 he
    · have : bid2 = n := by omega
      subst this
      rw [hops bid1 h1] at ho1
      rw [hgetD_n] at ho2
      simp only [List.mem_singleton] at ho2
      subst ho2
      have hmem := (inv.opsChar bid1 h1 o1 ho1).1
      have hlt := fresh o1.index hmem
      have he' : o1.index = idx := he
      omega
    · have : bid1 = n := by omega
      subst this
      rw [hops bid2 h2] at ho2
      rw [hgetD_n] at ho1
      simp only [List.mem_singleton] at ho1
      subst ho1
      have hmem := (inv.opsChar bid2 h2 o2 ho2).1
      have hlt := fresh o2.index hmem
      have he' : idx = o2.index := he
      omega
    · omega
  · intro b bid hb o ho
    by_cases hbr : b = r
    · subst hbr
      rw [hgr] at hb
      cases hb
      rw [hgetD_n] at ho
      simp only [List.mem_singleton] at ho
      subst ho
      rfl
    · rw [hgo b hbr] at hb
      have hlt := inv.slotValid b bid hb
      rw [hops bid hlt] at ho
      exact inv.slotKind b bid hb o ho
  · intro br bw hbr hbw
    cases hrc : r
    · rw [hrc] at hgr hgo
      rw [hgr] at hbw
      obtain rfl : n = bw := Option.some.inj hbw
      rw [hgo true (by simp)] at hbr
      have := inv.slotValid true br hbr
      omega
    · rw [hrc] at hgr hgo
      rw [hgr] at hbr
      obtain rfl : n = br := Option.some.inj hbr
      rw [hgo false (by simp)] at hbw
      have := inv.slotValid false bw hbw
      omega
  · intro b hb
    by_cases hbr : b = r
    · subst hbr
      rw [hgr] at hb
      cases hb
    · rw [hgo b hbr] at hb
      rw [hgo b hbr]
      exact inv.emptySlotKeys b hb
  · right
    refine ⟨r, ch ++ [n], hlc', ?_, ?_, ?_, ?_, ?_, ?_, ?_, ?_, ?_⟩
    · rw [links_iff_pos]
      have hold := (links_iff_pos s.blocks ch).mp hB.links
      constructor
      · intro t ht
        simp only [List.length_append, List.length_cons, List.length_nil] at ht
        by_cases htt : t + 1 < ch.length
        · rw [hchD_lt t (by omega), hchD_lt (t + 1) htt]
          have hne : ch.getD t 0 ≠ tl := by
            intro he
            have : t = ch.length - 1 :=
              nodup_getD_inj hB.nodup (by omega) (by omega) 0 he
            omega
          rw [hgetD_old _ (hchlt _ (getD_mem_of_lt (by omega))) hne]
          exact hold.1 t htt
        · have ht1 : t = ch.length - 1 := by omega
          have : ch.getD t 0 = tl := by
            rw [ht1]
          rw [hchD_lt t (by omega), this, hnext_tl]
          have : t + 1 = ch.length := by omega
          rw [this, hchD_n]
      · intro hne
        have hlast : (ch ++ [n]).getD ((ch ++ [n]).length - 1) 0 = n := by
          simp only [List.length_append, List.length_cons, List.length_nil]
          have : ch.length + 1 - 1 = ch.length := by omega
          rw [this, hchD_n]
        rw [hlast, hgetD_n]
    · rw [List.nodup_append]
      refine ⟨hB.nodup, by simp, ?_⟩
      intro a ha hb
      simp only [List.mem_singleton] at hb
      have := hchlt a ha
      omega
    · intro bid
      rw [hlen]
      rw [List.mem_append]
      constructor
      · rintro (h | h)
        · have := hchlt bid h
          omega
        · simp only [List.mem_singleton] at h
          omega
      · intro h
        by_cases hbn : bid < n
        · exact Or.inl ((hB.cover bid).mpr hbn)
        · right
          simp
          omega
    · simp only [List.length_append, List.length_cons, List.length_nil]
      omega
    · rw [hfh', hB.fhHead, hchD_lt 0 (by omega)]
    · simp only [List.length_append, List.length_cons, List.length_nil]
      have : ch.length + 1 - 1 = ch.length := by omega
      rw [this, hchD_n, hgr]
    · simp only [List.length_append, List.length_cons, List.length_nil]
      have h1 : ch.length + 1 - 2 = ch.length - 1 := by omega
      rw [h1, hchD_lt (ch.length - 1) (by omega), hnotr, hgo l hlner]
      exact hB.slotTail
    · intro o ho κ hκ
      simp only [List.length_append, List.length_cons, List.length_nil] at ho
      have h1 : ch.length + 1 - 1 = ch.length := by omega
      rw [h1, hchD_n, hgetD_n] at ho
      simp only [List.mem_singleton] at ho
      subst ho
      rw [hgr]
      exact hκ
    · intro t1 t2 ht1 ht2 o1 ho1 o2 ho2 he hop hsh
      simp only [List.length_append, List.length_cons, List.length_nil] at ht1 ht2
      by_cases h2 : t2 < ch.length
      · rw [hchD_lt t2 h2, hops _ (hchlt _ (getD_mem_of_lt h2))] at ho2
        have hm2 := (inv.opsChar _ (hchlt _ (getD_mem_of_lt h2)) o2 ho2).1
        have hlt2 := fresh o2.index hm2
        by_cases h1 : t1 < ch.length
        · rw [hchD_lt t1 h1, hops _ (hchlt _ (getD_mem_of_lt h1))] at ho1
          exact hB.pairOrder t1 t2 h1 h2 o1 ho1 o2 ho2 he hop hsh
        · have ht1e : t1 = ch.length := by omega
          rw [ht1e, hchD_n, hgetD_n] at ho1
          simp only [List.mem_singleton] at ho1
          subst ho1
          have he' : idx < o2.index := he
          omega
      · have ht2e : t2 = ch.length := by omega
        by_cases h1 : t1 < ch.length
        · omega
        · have ht1e : t1 = ch.length := by omega
          rw [ht1e, hchD_n, hgetD_n] at ho1
          simp only [List.mem_singleton] at ho1
          subst ho1
          rw [ht2e, hchD_n, hgetD_n] at ho2
          simp only [List.mem_singleton] at ho2
          subst ho2
          simp at he

end RedisService

namespace RedisService

theorem getData_update_blocks_fh_lc (s : SchedState) (bs : List Block)
    (f : Option Nat) (x : Option Bool) (r : Bool) :
    (SchedState.mk bs s.readData s.writeData f x s.dfatalCount).getData r =
      s.getData r := by
  cases r <;> rfl

theorem sinv_phaseA_conflict_cur {R : Nat → Bool} {K : Nat → List String}
    {applied : List Nat} {s : SchedState} {idx oid c1 : Nat}
    (inv : SInv R K applied s) (hA : PhaseA R K applied s)
    (fresh : ∀ a ∈ applied, a < idx)
    (hopp : (s.getData (!(R idx))).block = some oid)
    (hcur : (s.getData (R idx)).block = some c1) :
    SInv R K (applied ++ [idx])
      (({ s with
          blocks := addOp
            (s.blocks.set oid
              { s.blocks.getD oid default with next := some c1 })
            c1 ⟨R idx, idx⟩,
          flushHead := some oid,
          lastConflictWasRead := some (R idx) }).setData (R idx)
        ⟨(s.getData (R idx)).usedKeys ++ K idx, some c1⟩) := by
  set r := R idx with hr
  set n := s.blocks.length with hn
  have hoid_lt : oid < n := inv.slotValid (!r) oid hopp
  have hc1_lt : c1 < n := inv.slotValid r c1 hcur
  have hne : oid ≠ c1 := by
    cases hrc : r
    · rw [hrc] at hopp hcur
      exact fun he => (inv.slotsNe oid c1 hopp hcur) he
    · rw [hrc] at hopp hcur
      exact fun he => (inv.slotsNe c1 oid hcur hopp).symm he
  set Y := { s.blocks.getD oid default with next := some c1 } with hY
  set s' := ({ s with
      blocks := addOp (s.blocks.set oid Y) c1 ⟨r, idx⟩,
      flushHead := some oid,
      lastConflictWasRead := some r }).setData r
      ⟨(s.getData r).usedKeys ++ K idx, some c1⟩ with hs'
  have hblocks : s'.blocks = addOp (s.blocks.set oid Y) c1 ⟨r, idx⟩ := by
    simp [hs']
  have hlen : s'.blocks.length = n := by
    simp [hblocks, addOp]
  have hgr : s'.getData r = ⟨(s.getData r).usedKeys ++ K idx, some c1⟩ := by
    simp [hs']
  have hgo : ∀ b, b ≠ r → s'.getData b = s.getData b := by
    intro b hb
    simp [hs', getData_setData_ne _ hb, getData_update_blocks_fh_lc]
  have hgetD_oid : s'.blocks.getD oid default = Y := by
    rw [hblocks, addOp_getD_ne hne.symm, getD_set_self (by simpa using hoid_lt)]
  have hgetD_c1 : s'.blocks.getD c1 default =
      { s.blocks.getD c1 default with
          ops := (s.blocks.getD c1 default).ops ++ [⟨r, idx⟩] } := by
    rw [hblocks, addOp_getD_self (by simp [List.length_set]; omega),
      getD_set_ne hne]
  have hgetD_old : ∀ j, j ≠ oid → j ≠ c1 →
      s'.blocks.getD j default = s.blocks.getD j default := by
    intro j h1 h2
    rw [hblocks, addOp_getD_ne (fun he => h2 he.symm),
      getD_set_ne (fun he => h1 he.symm)]
  have hops : ∀ j, j ≠ c1 →
      (s'.blocks.getD j default).ops = (s.blocks.getD j default).ops := by
    intro j h2
    by_cases h1 : j = oid
    · subst h1
      rw [hgetD_oid, hY]
    · rw [hgetD_old j h1 h2]
  have hmem_c1 : ∀ o, o ∈ (s'.blocks.getD c1 default).ops ↔
      o ∈ (s.blocks.getD c1 default).ops ∨ o = ⟨r, idx⟩ := by
    intro o
    rw [hgetD_c1]
    simp
  have hmem' : ∀ j o, o ∈ (s'.blocks.getD j default).ops →
      o ∈ (s.blocks.getD j default).ops ∨ (j = c1 ∧ o = ⟨r, idx⟩) := by
    intro j o ho
    by_cases hjb : j = c1
    · subst hjb
      rcases (hmem_c1 o).mp ho with h | h
      · exact Or.inl h
      · exact Or.inr ⟨rfl, h⟩
    · rw [hops j hjb] at ho
      exact Or.inl ho
  have hlc' : s'.lastConflictWasRead = some r := by
    simp [hs']
  have hfh' : s'.flushHead = some oid := by
    simp [hs']
  have hdf' : s'.dfatalCount = s.dfatalCount := by
    simp [hs']
  refine ⟨?_, ?_, ?_, ?_, ?_, ?_, ?_, ?_, ?_, ?_⟩
  · rw [hdf']
    exact inv.dfatal0
  · intro b bid hb
    rw [hlen]
    by_cases hbr : b = r
    · subst hbr
      rw [hgr] at hb
      cases hb
      exact hc1_lt
    · rw [hgo b hbr] at hb
      exact inv.slotValid b bid hb
  · intro j hj
    rw [hlen] at hj
    by_cases hjc : j = c1
    · subst hjc
      rw [hgetD_c1]
      simp
    · rw [hops j hjc]
      exact inv.blockNE j hj
  · intro j hj o ho
    rw [hlen] at hj
    rcases hmem' j o ho with h | ⟨hjb, h⟩
    · obtain ⟨h1, h2⟩ := inv.opsChar j hj o h
      exact ⟨List.mem_append_left _ h1, h2⟩
    · subst h
      exact ⟨List.mem_append_right _ (List.mem_singleton_self idx), rfl⟩
  · intro i hi
    rcases List.mem_append.mp hi with hi | hi
    · obtain ⟨bid, hbid, o, ho, he⟩ := inv.reg i hi
      refine ⟨bid, by omega, o, ?_, he⟩
      by_cases hjb : bid = c1
      · subst hjb
        exact (hmem_c1 o).mpr (Or.inl ho)
      · rw [hops bid hjb]
        exact ho
    · simp only [List.mem_singleton] at hi
      subst hi
      refine ⟨c1, by omega, ⟨r, i⟩, ?_, rfl⟩
      exact (hmem_c1 _).mpr (Or.inr rfl)
  · intro bid1 bid2 hb1 hb2 o1 ho1 o2 ho2 he
    rw [hlen] at hb1 hb2
    rcases hmem' bid1 o1 ho1 with h1 | ⟨hjb1, h1⟩ <;>
      rcases hmem' bid2 o2 ho2 with h2 | ⟨hjb2, h2⟩
    · exact inv.regU bid1 bid2 hb1 hb2 o1 h1 o2 h2 he
    · subst h2
      have hmem2 := (inv.opsChar bid1 hb1 o1 h1).1
      have hlt := fresh o1.index hmem2
      have he' : o1.index = idx := he
      omega
    · subst h1
      have hmem2 := (inv.opsChar bid2 hb2 o2 h2).1
      have hlt := fresh o2.index hmem2
      have he' : idx = o2.index := he
      omega
    · rw [hjb1, hjb2]
  · intro b bid hb o ho
    by_cases hbr : b = r
    · subst hbr
      rw [hgr] at hb
      cases hb
      rcases (hmem_c1 o).mp ho with h | h
      · exact inv.slotKind r c1 hcur o h
      · subst h
        rfl
    · rw [hgo b hbr] at hb
      have hbnr : b = !r := bool_eq_not_of_ne hbr
      rw [hbnr] at hb
      obtain rfl : oid = bid := Option.some.inj (hopp.symm.trans hb)
      rw [hops oid hne] at ho
      rw [hbnr]
      exact inv.slotKind (!r) oid hopp o ho
  · intro br bw hbr hbw
    cases hrc : r
    · rw [hrc] at hgr hgo hopp
      rw [hgr] at hbw
      obtain rfl : c1 = bw := Option.some.inj hbw
      rw [hgo true (by simp)] at hbr
      obtain rfl : oid = br := Option.some.inj (hopp.symm.trans hbr)
      omega
    · rw [hrc] at hgr hgo hopp
      rw [hgr] at hbr
      obtain rfl : c1 = br := Option.some.inj hbr
      rw [hgo false (by simp)] at hbw
      obtain rfl : oid = bw := Option.some.inj (hopp.symm.trans hbw)
      omega
  · intro b hb
    by_cases hbr : b = r
    · subst hbr
      rw [hgr] at hb
      cases hb
    · rw [hgo b hbr] at hb
      have hbnr : b = !r := bool_eq_not_of_ne hbr
      rw [hbnr] at hb
      rw [hopp] at hb
      cases hb
  · right
    refine ⟨r, [oid, c1], hlc', ?_, ?_, ?_, by simp, ?_, ?_, ?_, ?_, ?_⟩
    · show (s'.blocks.getD oid default).next = some c1 ∧ Links s'.blocks [c1]
      refine ⟨?_, ?_⟩
      · rw [hgetD_oid]
      · show (s'.blocks.getD c1 default).next = none
        rw [hgetD_c1]
        exact hA.nextNone c1 hc1_lt
    · simp [hne]
    · intro bid
      rw [hlen]
      constructor
      · intro hm
        simp only [List.mem_cons, List.mem_singleton, List.not_mem_nil,
          or_false] at hm
        rcases hm with h | h <;> omega
      · intro hm
        rcases hA.slotCover bid hm with hsl | hsl
        · cases hrc : r
          · rw [hrc] at hopp
            obtain rfl : oid = bid := Option.some.inj (hopp.symm.trans hsl)
            simp
          · rw [hrc] at hcur
            obtain rfl : c1 = bid := Option.some.inj (hcur.symm.trans hsl)
            simp
        · cases hrc : r
          · rw [hrc] at hcur
            obtain rfl : c1 = bid := Option.some.inj (hcur.symm.trans hsl)
            simp
          · rw [hrc] at hopp
            obtain rfl : oid = bid := Option.some.inj (hopp.symm.trans hsl)
            simp
    · rw [hfh']
      rfl
    · rw [hgr]
      rfl
    · rw [hgo (!r) (fun h => bool_ne_not r h.symm)]
      exact hopp
    · intro o ho κ hκ
      rw [hgr]
      rcases (hmem_c1 o).mp ho with h | h
      · have hk := inv.slotKind r c1 hcur o h
        have hoc := inv.opsChar c1 hc1_lt o h
        have := hA.keysTracked o.index hoc.1 κ hκ
        rw [← hoc.2, hk] at this
        exact List.mem_append_left _ this
      · subst h
        exact List.mem_append_right _ hκ
    · intro t1 t2 ht1 ht2 o1 ho1 o2 ho2 he hop hsh
      simp only [List.length_cons, List.length_nil] at ht1 ht2
      have hcase1 : t1 = 0 ∨ t1 = 1 := by omega
      have hcase2 : t2 = 0 ∨ t2 = 1 := by omega
      rcases hcase1 with rfl | rfl <;> rcases hcase2 with rfl | rfl
      · exfalso
        simp only [List.getD_cons_zero] at ho1 ho2
        rw [hops oid hne] at ho1 ho2
        have k1 := inv.slotKind (!r) oid hopp o1 ho1
        have k2 := inv.slotKind (!r) oid hopp o2 ho2
        rw [k1, k2] at hop
        exact bool_ne_not (!r) hop
      · omega
      · exfalso
        simp only [List.getD_cons_zero, List.getD_cons_succ] at ho1 ho2
        rw [hops oid hne] at ho2
        have k2 := inv.slotKind (!r) oid hopp o2 ho2
        have hc2 := inv.opsChar oid hoid_lt o2 ho2
        rcases hmem' c1 o1 ho1 with h1 | ⟨-, h1⟩
        · have k1 := inv.slotKind r c1 hcur o1 h1
          have hc1o := inv.opsChar c1 hc1_lt o1 h1
          obtain ⟨κ, hκ1, hκ2⟩ := hsh
          refine hA.noPair o1.index hc1o.1 o2.index hc2.1 ?_ κ hκ1 hκ2
          rw [← hc1o.2, ← hc2.2, k1, k2]
          simp
        · subst h1
          have := fresh o2.index hc2.1
          have he' : idx < o2.index := he
          omega
      · exfalso
        rcases hmem' c1 o1 (by simpa using ho1) with h1 | ⟨-, h1⟩ <;>
          rcases hmem' c1 o2 (by simpa using ho2) with h2 | ⟨-, h2⟩
        · have k1 := inv.slotKind r c1 hcur o1 h1
          have k2 := inv.slotKind r c1 hcur o2 h2
          rw [k1, k2] at hop
          exact bool_ne_not r hop
        · subst h2
          have k1 := inv.slotKind r c1 hcur o1 h1
          have he2 : o1.read = !r := hop
          rw [k1] at he2
          exact bool_ne_not r he2
        · subst h1
          have hc2 := inv.opsChar c1 hc1_lt o2 h2
          have := fresh o2.index hc2.1
          have he' : idx < o2.index := he
          omega
        · subst h1
          subst h2
          simp at he

end RedisService

namespace RedisService

theorem sinv_phaseA_conflict_nocur {R : Nat → Bool} {K : Nat → List String}
    {applied : List Nat} {s : SchedState} {idx oid : Nat}
    (inv : SInv R K applied s) (hA : PhaseA R K applied s)
    (fresh : ∀ a ∈ applied, a < idx)
    (hopp : (s.getData (!(R idx))).block = some oid)
    (hcur : (s.getData (R idx)).block = none) :
    SInv R K (applied ++ [idx])
      (({ s with
          blocks := (s.blocks.set oid
              { s.blocks.getD oid default with next := some s.blocks.length })
            ++ [Block.mk [⟨R idx, idx⟩] none],
          flushHead := some oid,
          lastConflictWasRead := some (R idx) }).setData (R idx)
        ⟨(s.getData (R idx)).usedKeys ++ K idx, some s.blocks.length⟩) := by
  set r := R idx with hr
  set n := s.blocks.length with hn
  have hoid_lt : oid < n := inv.slotValid (!r) oid hopp
  set X := { s.blocks.getD oid default with next := some n } with hX
  set s' := ({ s with
      blocks := (s.blocks.set oid X) ++ [Block.mk [⟨r, idx⟩] none],
      flushHead := some oid,
      lastConflictWasRead := some r }).setData r
      ⟨(s.getData r).usedKeys ++ K idx, some n⟩ with hs'
  have hblocks : s'.blocks = (s.blocks.set oid X) ++ [Block.mk [⟨r, idx⟩] none] := by
    simp [hs']
  have hlen : s'.blocks.length = n + 1 := by
    simp [hblocks]
  have hgr : s'.getData r = ⟨(s.getData r).usedKeys ++ K idx, some n⟩ := by
    simp [hs']
  have hgo : ∀ b, b ≠ r → s'.getData b = s.getData b := by
    intro b hb
    simp [hs', getData_setData_ne _ hb, getData_update_blocks_fh_lc]
  have hgetD_old : ∀ j, j < n → j ≠ oid →
      s'.blocks.getD j default = s.blocks.getD j default := by
    intro j hj hjo
    rw [hblocks, getD_append_left (by simpa using hj),
      getD_set_ne (fun he => hjo he.symm)]
  have hgetD_oid : s'.blocks.getD oid default = X := by
    rw [hblocks, getD_append_left (by simpa using hoid_lt),
      getD_set_self (by simpa using hoid_lt)]
  have hgetD_n : s'.blocks.getD n default = Block.mk [⟨r, idx⟩] none := by
    rw [hblocks]
    have h2 := getD_append_right_self (l := s.blocks.set oid X)
      (Block.mk [⟨r, idx⟩] none) (default : Block)
    rwa [List.length_set] at h2
  have hops : ∀ j, j < n →
      (s'.blocks.getD j default).ops = (s.blocks.getD j default).ops := by
    intro j hj
    by_cases hjo : j = oid
    · subst hjo
      rw [hgetD_oid, hX]
    · rw [hgetD_old j hj hjo]
  have hlc' : s'.lastConflictWasRead = some r := by
    simp [hs']
  have hfh' : s'.flushHead = some oid := by
    simp [hs']
  have hdf' : s'.dfatalCount = s.dfatalCount := by
    simp [hs']
  refine ⟨?_, ?_, ?_, ?_, ?_, ?_, ?_, ?_, ?_, ?_⟩
  · rw [hdf']
    exact inv.dfatal0
  · intro b bid hb
    rw [hlen]
    by_cases hbr : b = r
    · subst hbr
      rw [hgr] at hb
      cases hb
      omega
    · rw [hgo b hbr] at hb
      have := inv.slotValid b bid hb
      omega
  · intro j hj
    rw [hlen] at hj
    by_cases hjn : j < n
    · rw [hops j hjn]
      exact inv.blockNE j hjn
    · have : j = n := by omega
      subst this
      rw [hgetD_n]
      simp
  · intro j hj o ho
    rw [hlen] at hj
    by_cases hjn : j < n
    · rw [hops j hjn] at ho
      obtain ⟨h1, h2⟩ := inv.opsChar j hjn o ho
      exact ⟨List.mem_append_left _ h1, h2⟩
    · have : j = n := by omega
      subst this
      rw [hgetD_n] at ho
      simp only [List.mem_singleton] at ho
      subst ho
      exact ⟨List.mem_append_right _ (List.mem_singleton_self idx), rfl⟩
  · intro i hi
    rcases List.mem_append.mp hi with hi | hi
    · obtain ⟨bid, hbid, o, ho, he⟩ := inv.reg i hi
      refine ⟨bid, by omega, o, ?_, he⟩
      rw [hops bid hbid]
      exact ho
    · simp only [List.mem_singleton] at hi
      subst hi
      refine ⟨n, by omega, ⟨r, i⟩, ?_, rfl⟩
      rw [hgetD_n]
      simp
  · intro bid1 bid2 hb1 hb2 o1 ho1 o2 ho2 he
    rw [hlen] at hb1 hb2
    by_cases h1 : bid1 < n <;> by_cases h2 : bid2 < n
    · rw [hops bid1 h1] at ho1
      rw [hops bid2 h2] at ho2
      exact inv.regU bid1 bid2 h1 h2 o1 ho1 o2 ho2 he
    · have : bid2 = n := by omega
      subst this
      rw [hops bid1 h1] at ho1
      rw [hgetD_n] at ho2
      simp only [List.mem_singleton] at ho2
      subst ho2
      have hmem := (inv.opsChar bid1 h1 o1 ho1).1
      have hlt := fresh o1.index hmem
      have he' : o1.index = idx := he
      omega
    · have : bid1 = n := by omega
      subst this
      rw [hops bid2 h2] at ho2
      rw [hgetD_n] at ho1
      simp only [List.mem_singleton] at ho1
      subst ho1
      have hmem := (inv.opsChar bid2 h2 o2 ho2).1
      have hlt := fresh o2.index hmem
      have he' : idx = o2.index := he
      omega
    · omega
  · intro b bid hb o ho
    by_cases hbr : b = r
    · subst hbr
      rw [hgr] at hb
      cases hb
      rw [hgetD_n] at ho
      simp only [List.mem_singleton] at ho
      subst ho
      rfl
    · rw [hgo b hbr] at hb
      have hlt := inv.slotValid b bid hb
      rw [hops bid hlt] at ho
      exact inv.slotKind b bid hb o ho
  · intro br bw hbr hbw
    cases hrc : r
    · rw [hrc] at hgr hgo
      rw [hgr] at hbw
      obtain rfl : n = bw := Option.some.inj hbw
      rw [hgo true (by simp)] at hbr
      have := inv.slotValid true br hbr
      omega
    · rw [hrc] at hgr hgo
      rw [hgr] at hbr
      obtain rfl : n = br := Option.some.inj hbr
      rw [hgo false (by simp)] at hbw
      have := inv.slotValid false bw hbw
      omega
  · intro b hb
    by_cases hbr : b = r
    · subst hbr
      rw [hgr] at hb
      cases hb
    · rw [hgo b hbr] at hb
      have hbnr : b = !r := bool_eq_not_of_ne hbr
      rw [hbnr] at hb
      rw [hopp] at hb
      cases hb
  · right
    refine ⟨r, [oid, n], hlc', ?_, ?_, ?_, by simp, ?_, ?_, ?_, ?_, ?_⟩
    · show (s'.blocks.getD oid default).next = some n ∧ Links s'.blocks [n]
      refine ⟨?_, ?_⟩
      · rw [hgetD_oid]
      · show (s'.blocks.getD n default).next = none
        rw [hgetD_n]
    · simp
      omega
    · intro bid
      rw [hlen]
      constructor
      · intro hm
        simp only [List.mem_cons, List.mem_singleton, List.not_mem_nil,
          or_false] at hm
        rcases hm with h | h <;> omega
      · intro hm
        by_cases hbn : bid < n
        · rcases hA.slotCover bid hbn with hsl | hsl
          · cases hrc : r
            · rw [hrc] at hopp
              obtain rfl : oid = bid := Option.some.inj (hopp.symm.trans hsl)
              simp
            · rw [hrc] at hcur
              rw [hcur] at hsl
              cases hsl
          · cases hrc : r
            · rw [hrc] at hcur
              rw [hcur] at hsl
              cases hsl
            · rw [hrc] at hopp
              obtain rfl : oid = bid := Option.some.inj (hopp.symm.trans hsl)
              simp
        · have : bid = n := by omega
          subst this
          simp
    · rw [hfh']
      rfl
    · rw [hgr]
      rfl
    · rw [hgo (!r) (fun h => bool_ne_not r h.symm)]
      exact hopp
    · intro o ho κ hκ
      rw [hgr]
      have hn2 : ([oid, n].getD ([oid, n].length - 1) 0) = n := rfl
      rw [hn2, hgetD_n] at ho
      simp only [List.mem_singleton] at ho
      subst ho
      exact List.mem_append_right _ hκ
    · intro t1 t2 ht1 ht2 o1 ho1 o2 ho2 he hop hsh
      simp only [List.length_cons, List.length_nil] at ht1 ht2
      have hcase1 : t1 = 0 ∨ t1 = 1 := by omega
      have hcase2 : t2 = 0 ∨ t2 = 1 := by omega
      rcases hcase1 with rfl | rfl <;> rcases hcase2 with rfl | rfl
      · exfalso
        simp only [List.getD_cons_zero] at ho1 ho2
        rw [hops oid hoid_lt] at ho1 ho2
        have k1 := inv.slotKind (!r) oid hopp o1 ho1
        have k2 := inv.slotKind (!r) oid hopp o2 ho2
        rw [k1, k2] at hop
        exact bool_ne_not (!r) hop
      · omega
      · exfalso
        simp only [List.getD_cons_zero, List.getD_cons_succ] at ho1 ho2
        rw [hops oid hoid_lt] at ho2
        have hc2 := inv.opsChar oid hoid_lt o2 ho2
        rw [hgetD_n] at ho1
        simp only [List.mem_singleton] at ho1
        subst ho1
        have := fresh o2.index hc2.1
        have he' : idx < o2.index := he
        omega
      · exfalso
        simp only [List.getD_cons_succ, List.getD_cons_zero] at ho1 ho2
        rw [hgetD_n] at ho1 ho2
        simp only [List.mem_singleton] at ho1 ho2
        subst ho1
        subst ho2
        simp at he

end RedisService

namespace RedisService

theorem sinv_step {R : Nat → Bool} {K : Nat → List String}
    {applied : List Nat} {s : SchedState} {idx : Nat}
    (inv : SInv R K applied s) (fresh : ∀ a ∈ applied, a < idx) :
    SInv R K (applied ++ [idx]) (SchedApply idx (R idx) (K idx) s) := by
  set r := R idx with hr
  rcases inv.phase with hA | ⟨l, ch, hB⟩
  · have hlcn := hA.lcNone
    have hlc' : ¬ s.lastConflictWasRead = some r := by
      rw [hlcn]
      exact fun h => Option.noConfusion h
    cases hconf : (K idx).any (fun k => (s.getData (!r)).usedKeys.contains k) with
    | false =>
      have hcc := checkConflicts_noconf hlc' hconf
      cases hcur : (s.getData r).block with
      | none =>
        rw [schedApply_fresh_noLc idx hcc hcur hlc']
        exact sinv_phaseA_fresh inv hA fresh hconf hcur
      | some bid =>
        rw [schedApply_existing idx hcc hcur]
        exact sinv_phaseA_existing inv hA fresh hconf hcur
    | true =>
      have hopp : ∃ oid, (s.getData (!r)).block = some oid := by
        obtain ⟨κ, hκ, hm⟩ := any_contains_eq_true hconf
        cases ho : (s.getData (!r)).block with
        | none =>
          rw [inv.emptySlotKeys (!r) ho] at hm
          cases hm
        | some oid => exact ⟨oid, rfl⟩
      obtain ⟨oid, hopp⟩ := hopp
      cases hcur : (s.getData r).block with
      | none =>
        rw [schedApply_first_conflict_nocur idx hlcn hconf hopp hcur
          (inv.slotValid _ _ hopp)]
        exact sinv_phaseA_conflict_nocur inv hA fresh hopp hcur
      | some c1 =>
        rw [schedApply_first_conflict_cur idx hlcn hconf hopp hcur]
        exact sinv_phaseA_conflict_cur inv hA fresh hopp hcur
  · by_cases hrl : r = l
    · have hskip : s.lastConflictWasRead = some r := by
        rw [hrl]
        exact hB.lcSome
      have hcc := checkConflicts_skip hskip (K idx)
      have hcur : (s.getData r).block = some (ch.getD (ch.length - 1) 0) := by
        rw [hrl]
        exact hB.slotTail
      rw [schedApply_existing idx hcc hcur]
      exact sinv_phaseB_tail inv hB fresh hrl
    · have hrl2 : r = !l := bool_eq_not_of_ne hrl
      have hlc' : ¬ s.lastConflictWasRead = some r := by
        rw [hB.lcSome]
        intro h
        have h2 := Option.some.inj h
        rw [hrl2] at h2
        exact bool_ne_not l h2
      cases hconf : (K idx).any (fun k => (s.getData (!r)).usedKeys.contains k) with
      | false =>
        have hcc := checkConflicts_noconf hlc' hconf
        have hcur : (s.getData r).block = some (ch.getD (ch.length - 2) 0) := by
          rw [hrl2]
          exact hB.slotPred
        rw [schedApply_existing idx hcc hcur]
        exact sinv_phaseB_pred inv hB fresh hrl2 hconf
      | true =>
        have hlcflip : s.lastConflictWasRead = some (!r) := by
          rw [hB.lcSome]
          congr 1
          rw [hrl2]
          simp
        have hopp : (s.getData (!r)).block =
            some (ch.getD (ch.length - 1) 0) := by
          have h2 : (!r) = l := by
            rw [hrl2]
            simp
          rw [h2]
          exact hB.slotTail
        have htlnext : (s.blocks.getD (ch.getD (ch.length - 1) 0) default).next
            = none := by
          have hpos := (links_iff_pos s.blocks ch).mp hB.links
          refine hpos.2 ?_
          have h2 := hB.two
          intro he
          rw [he] at h2
          simp at h2
        rw [schedApply_flip idx hlcflip hconf hopp htlnext
          (inv.slotValid _ _ hopp)]
        exact sinv_phaseB_flip inv hB fresh hrl2

theorem sinv_init (R : Nat → Bool) (K : Nat → List String) :
    SInv R K [] initState := by
  refine ⟨rfl, ?_, ?_, ?_, ?_, ?_, ?_, ?_, ?_, Or.inl ⟨rfl, rfl, ?_, ?_, ?_, ?_⟩⟩
  · intro b bid hb
    cases b <;> cases hb
  · intro bid hbid
    simp [initState] at hbid
  · intro bid hbid
    simp [initState] at hbid
  · intro i hi
    simp at hi
  · intro bid1 bid2 h1 h2
    simp [initState] at h1
  · intro b bid hb
    cases b <;> cases hb
  · intro br bw hbr
    cases hbr
  · intro b hb
    cases b <;> rfl
  · intro bid hbid
    simp [initState] at hbid
  · intro bid hbid
    simp [initState] at hbid
  · intro i hi
    simp at hi
  · intro i hi
    simp at hi

end RedisService

namespace RedisService

theorem handleOne_state (sb : Bool) (env : BatchEnv)
    (batch : List (List String)) (idx : Nat) (st : SchedState) :
    (HandleOne sb env (batch.getD idx []) idx st).2 =
      (match opFlag sb env batch idx with
       | some r => SchedApply idx r (opKeys sb env idx) st
       | none => st) := by
  unfold HandleOne opFlag CommandStep opKeys
  cases hro : RouteOf (batch.getD idx []) with
  | unsupported => rfl
  | tooFew => rfl
  | wrongNumber => rfl
  | dispatch info =>
    obtain ⟨nm, ar, kd⟩ := info
    cases kd with
    | ECHO => rfl
    | READ =>
      cases hpe : env.parseErr idx with
      | some m => rfl
      | none =>
        cases sb with
        | false => rfl
        | true =>
          cases hke : env.keyErr idx with
          | some m => rfl
          | none => rfl
    | WRITE =>
      cases hpe : env.parseErr idx with
      | some m => rfl
      | none =>
        cases sb with
        | false => rfl
        | true =>
          cases hke : env.keyErr idx with
          | some m => rfl
          | none => rfl

theorem rwfe_shape (c : List String) (idx : Nat) (m : String) :
    ∀ e ∈ respondWithFailureEvents c idx m, isResp e = true ∨ e = Event.oob := by
  intro e he
  unfold respondWithFailureEvents at he
  cases c with
  | nil =>
    simp only [List.get?] at he
    simp only [List.mem_singleton] at he
    subst he
    exact Or.inr rfl
  | cons a t =>
    simp only [List.get?] at he
    simp only [List.mem_singleton] at he
    subst he
    exact Or.inl rfl

theorem handleOne_events (sb : Bool) (env : BatchEnv) (c : List String)
    (idx : Nat) (st : SchedState) :
    ∀ e ∈ (HandleOne sb env c idx st).1, isResp e = true ∨ e = Event.oob := by
  intro e he
  unfold HandleOne at he
  cases hro : RouteOf c with
  | unsupported =>
    rw [hro] at he
    exact rwfe_shape c idx _ e he
  | tooFew =>
    rw [hro] at he
    exact rwfe_shape c idx _ e he
  | wrongNumber =>
    rw [hro] at he
    exact rwfe_shape c idx _ e he
  | dispatch info =>
    rw [hro] at he
    obtain ⟨nm, ar, kd⟩ := info
    cases kd with
    | ECHO =>
      simp only [List.mem_singleton] at he
      subst he
      exact Or.inl rfl
    | READ =>
      unfold CommandStep at he
      cases hpe : env.parseErr idx with
      | some m =>
        rw [hpe] at he
        exact rwfe_shape c idx _ e he
      | none =>
        rw [hpe] at he
        cases sb with
        | false => simp at he
        | true =>
          cases hke : env.keyErr idx with
          | some m =>
            rw [hke] at he
            simp only [if_true] at he
            exact rwfe_shape c idx _ e he
          | none =>
            rw [hke] at he
            simp at he
    | WRITE =>
      unfold CommandStep at he
      cases hpe : env.parseErr idx with
      | some m =>
        rw [hpe] at he
        exact rwfe_shape c idx _ e he
      | none =>
        rw [hpe] at he
        cases sb with
        | false => simp at he
        | true =>
          cases hke : env.keyErr idx with
          | some m =>
            rw [hke] at he
            simp only [if_true] at he
            exact rwfe_shape c idx _ e he
          | none =>
            rw [hke] at he
            simp at he

theorem handleUpTo_succ (sb : Bool) (env : BatchEnv)
    (batch : List (List String)) (t : Nat) :
    HandleUpTo sb env batch (t + 1) =
      HandleStep sb env batch (HandleUpTo sb env batch t) t := by
  unfold HandleUpTo
  rw [List.range_succ, List.foldl_append]
  rfl

theorem dispatchedUpTo_succ (sb : Bool) (env : BatchEnv)
    (batch : List (List String)) (t : Nat) :
    dispatchedUpTo sb env batch (t + 1) =
      dispatchedUpTo sb env batch t ++
        (if (opFlag sb env batch t).isSome then [t] else []) := by
  unfold dispatchedUpTo
  rw [List.range_succ, List.filter_append]
  congr 1
  cases hof : (opFlag sb env batch t).isSome <;> simp [hof]

theorem handleUpTo_inv (sb : Bool) (env : BatchEnv)
    (batch : List (List String)) (t : Nat) :
    SInv (fun i => (opFlag sb env batch i).getD false)
      (fun i => opKeys sb env i)
      (dispatchedUpTo sb env batch t) (HandleUpTo sb env batch t).2 := by
  induction t with
  | zero => exact sinv_init _ _
  | succ t ih =>
    rw [handleUpTo_succ]
    unfold HandleStep
    have hst := handleOne_state sb env batch t (HandleUpTo sb env batch t).2
    rw [dispatchedUpTo_succ]
    cases hof : opFlag sb env batch t with
    | none =>
      rw [hof] at hst
      simp only [hof, Option.isSome_none, if_neg (by simp : ¬false = true),
        List.append_nil]
      show SInv _ _ _ (HandleOne sb env (batch.getD t []) t
        (HandleUpTo sb env batch t).2).2
      rw [hst]
      exact ih
    | some r =>
      rw [hof] at hst
      simp only [hof, Option.isSome_some, if_pos rfl]
      show SInv _ _ _ (HandleOne sb env (batch.getD t []) t
        (HandleUpTo sb env batch t).2).2
      rw [hst]
      have hfresh : ∀ a ∈ dispatchedUpTo sb env batch t, a < t := by
        intro a ha
        have := List.mem_filter.mp ha
        exact List.mem_range.mp this.1
      have happ := sinv_step ih hfresh
      have hRt : (opFlag sb env batch t).getD false = r := by
        simp [hof]
      rw [hRt] at happ
      exact happ

end RedisService

namespace RedisService

theorem chainIds_eq {blocks : List Block} :
    ∀ ch : List Nat, Links blocks ch → ch ≠ [] →
      ∀ fuel, ch.length ≤ fuel →
        chainIds blocks (some (ch.getD 0 0)) fuel = ch := by
  intro ch
  induction ch generalizing blocks with
  | nil => intro _ h _ _; exact absurd rfl h
  | cons a rest ih =>
    intro hl _ fuel hf
    cases fuel with
    | zero => simp at hf
    | succ fuel' =>
      show a :: chainIds blocks (blocks.getD a default).next fuel' = a :: rest
      congr 1
      cases rest with
      | nil =>
        have : (blocks.getD a default).next = none := hl
        rw [this]
        cases fuel' <;> rfl
      | cons b rest2 =>
        obtain ⟨h1, h2⟩ := hl
        rw [h1]
        exact @ih blocks h2 (by simp) fuel' (by simpa using hf)

theorem nodup_bounded_length_le {ch : List Nat} {n : Nat} (hnd : ch.Nodup)
    (hb : ∀ bid ∈ ch, bid < n) : ch.length ≤ n := by
  have h1 : ch.length = ch.toFinset.card := (List.toFinset_card_of_nodup hnd).symm
  have h2 : ch.toFinset ⊆ Finset.range n := by
    intro x hx
    rw [List.mem_toFinset] at hx
    rw [Finset.mem_range]
    exact hb x hx
  have h3 := Finset.card_le_card h2
  rw [Finset.card_range] at h3
  omega

theorem getD_mem_take {l : List Nat} : ∀ {t k : Nat}, t < k → t < l.length →
    l.getD t 0 ∈ l.take k := by
  induction l with
  | nil => intro t k _ h2; simp at h2
  | cons a rest ih =>
    intro t k h1 h2
    cases t with
    | zero =>
      cases k with
      | zero => omega
      | succ k' => exact List.mem_cons_self _ _
    | succ t' =>
      cases k with
      | zero => omega
      | succ k' =>
        exact List.mem_cons_of_mem _ (ih (by omega) (by simpa using h2))

theorem mem_take_exists_getD {l : List Nat} :
    ∀ {x k : Nat}, x ∈ l.take k →
      ∃ t, t < k ∧ t < l.length ∧ l.getD t 0 = x := by
  induction l with
  | nil => intro x k h; simp at h
  | cons a rest ih =>
    intro x k h
    cases k with
    | zero => simp at h
    | succ k' =>
      simp only [List.take_succ_cons, List.mem_cons] at h
      rcases h with h | h
      · exact ⟨0, by omega, by simp, h.symm⟩
      · obtain ⟨t, ht1, ht2, ht3⟩ := ih h
        exact ⟨t + 1, by omega, by simpa using ht2, ht3⟩

theorem doneEvents_none {env : BatchEnv} {bid : Nat} (b : Block)
    (h : env.flushErr bid = none) :
    doneEvents env bid b
      = b.ops.map (fun o => Event.respS o.index (env.opResponse o.index)) := by
  unfold doneEvents
  rw [h]

theorem doneEvents_some {env : BatchEnv} {bid : Nat} (b : Block) {m : String}
    (h : env.flushErr bid = some m) :
    doneEvents env bid b = b.ops.map (fun o => Event.respF o.index m) := by
  unfold doneEvents
  rw [h]

theorem submit_mem_blockEvents {env : BatchEnv} {bid : Nat} {b : Block}
    {j : Nat} (h : Event.submit j ∈ blockEvents env bid b) :
    ∃ o ∈ b.ops, o.index = j := by
  unfold blockEvents at h
  by_cases hE : (b.ops.filter fun o => decide (env.applyErr o.index = none)).isEmpty
  · rw [if_pos hE] at h
    rw [List.mem_filterMap] at h
    obtain ⟨o, -, ho2⟩ := h
    rw [Option.map_eq_some'] at ho2
    obtain ⟨m, -, hm⟩ := ho2
    cases hm
  · rw [if_neg hE] at h
    rcases List.mem_append.mp h with h | h
    · rcases List.mem_append.mp h with h | h
      · rw [List.mem_filterMap] at h
        obtain ⟨o, -, ho2⟩ := h
        rw [Option.map_eq_some'] at ho2
        obtain ⟨m, -, hm⟩ := ho2
        cases hm
      · rcases List.mem_cons.mp h with h | h
        · exact Event.noConfusion h
        · rw [List.mem_map] at h
          obtain ⟨o, ho, he⟩ := h
          exact ⟨o, List.mem_of_mem_filter ho, Event.submit.inj he⟩
    · rcases hfe : env.flushErr bid with _ | m
      · rw [doneEvents_none b hfe, List.mem_map] at h
        obtain ⟨o, -, he⟩ := h
        cases he
      · rw [doneEvents_some b hfe, List.mem_map] at h
        obtain ⟨o, -, he⟩ := h
        cases he

theorem resp_mem_blockEvents {env : BatchEnv} (bid : Nat) {b : Block}
    {o : Operation} (ho : o ∈ b.ops) :
    ∃ e ∈ blockEvents env bid b, isRespFor o.index e = true := by
  unfold blockEvents
  cases hae : env.applyErr o.index with
  | some m =>
    refine ⟨Event.respF o.index m, ?_, by simp [isRespFor]⟩
    have hmem : Event.respF o.index m ∈ b.ops.filterMap
        (fun o => (env.applyErr o.index).map (fun m => Event.respF o.index m)) := by
      rw [List.mem_filterMap]
      exact ⟨o, ho, by rw [hae]; rfl⟩
    by_cases hE : (b.ops.filter fun o => decide (env.applyErr o.index = none)).isEmpty
    · rw [if_pos hE]
      exact hmem
    · rw [if_neg hE]
      exact List.mem_append_left _ (List.mem_append_left _ hmem)
  | none =>
    have hne : ¬ (b.ops.filter fun o => decide (env.applyErr o.index = none)).isEmpty := by
      rw [List.isEmpty_iff]
      intro hnil
      have : o ∈ b.ops.filter fun o => decide (env.applyErr o.index = none) :=
        List.mem_filter.mpr ⟨ho, by simp [hae]⟩
      rw [hnil] at this
      cases this
    rw [if_neg hne]
    rcases hfe : env.flushErr bid with _ | m
    · refine ⟨Event.respS o.index (env.opResponse o.index), ?_, by simp [isRespFor]⟩
      refine List.mem_append_right _ ?_
      rw [doneEvents_none b hfe, List.mem_map]
      exact ⟨o, ho, rfl⟩
    · refine ⟨Event.respF o.index m, ?_, by simp [isRespFor]⟩
      refine List.mem_append_right _ ?_
      rw [doneEvents_some b hfe, List.mem_map]
      exact ⟨o, ho, rfl⟩

theorem handleUpTo_events (sb : Bool) (env : BatchEnv)
    (batch : List (List String)) (t : Nat) :
    ∀ e ∈ (HandleUpTo sb env batch t).1, isResp e = true ∨ e = Event.oob := by
  induction t with
  | zero => intro e he; cases he
  | succ t ih =>
    rw [handleUpTo_succ]
    unfold HandleStep
    intro e he
    simp only [List.mem_append] at he
    rcases he with he | he
    · exact ih e he
    · exact handleOne_events sb env _ t _ e he

/-- C5: over every batch handled by the service, the `SetNext` performed
inside `BatchContext::Apply` (chaining a freshly created block behind the
opposite kind's block) never finds a previously installed successor: the
`LOG(DFATAL)` branch is unreachable. -/
theorem c5_setnext_always_absent (sb : Bool) (env : BatchEnv)
    (batch : List (List String)) :
    (HandleBatch sb env batch).2.dfatalCount = 0 :=
  (handleUpTo_inv sb env batch batch.length).dfatal0

end RedisService
namespace RedisService

theorem mem_of_getElem_opt {α : Type} {l : List α} {n : Nat} {a : α}
    (h : l[n]? = some a) : a ∈ l := by
  obtain ⟨hlt, he⟩ := List.getElem?_eq_some.mp h
  exact he ▸ l.getElem_mem hlt

theorem commitEvents_head {env : BatchEnv} {s : SchedState} {h : Nat}
    (hh : s.flushHead = some h) :
    CommitEvents env s = chainTrace env s.blocks (some h) s.blocks.length := by
  unfold CommitEvents
  rw [hh]

/-- C3: with safe batching enabled, for every pair of commands at batch
indices `i < j` of opposite kinds (one READ, one WRITE) dispatched to the
backend with a common primary key, every backend submission of command
`j`'s operation in the full trace is strictly preceded by a response for
command `i`. -/
theorem c3_conflicting_pair_ordered (env : BatchEnv)
    (batch : List (List String)) (i j : Nat) (ri rj : Bool)
    (hij : i < j) (hj : j < batch.length)
    (hdi : opFlag true env batch i = some ri)
    (hdj : opFlag true env batch j = some rj)
    (hk : ri = !rj)
    (hkey : env.keyOf i = env.keyOf j) :
    ∀ p : Nat, (FullTrace true env batch)[p]? = some (Event.submit j) →
      ∃ q : Nat, q < p ∧ ∃ e, (FullTrace true env batch)[q]? = some e ∧
        isRespFor i e = true := by
  have hinv : SInv (fun k => (opFlag true env batch k).getD false)
      (fun k => opKeys true env k)
      (dispatchedUpTo true env batch batch.length)
      (HandleBatch true env batch).2 :=
    handleUpTo_inv true env batch batch.length
  have hiapp : i ∈ dispatchedUpTo true env batch batch.length :=
    List.mem_filter.mpr ⟨List.mem_range.mpr (by omega), by rw [hdi]; rfl⟩
  have hjapp : j ∈ dispatchedUpTo true env batch batch.length :=
    List.mem_filter.mpr ⟨List.mem_range.mpr hj, by rw [hdj]; rfl⟩
  rcases hinv.phase with hA | ⟨l, ch, hB⟩
  · exfalso
    refine hA.noPair i hiapp j hjapp ?_ (env.keyOf i) ?_ ?_
    · rw [hdi, hdj]; exact hk
    · show env.keyOf i ∈ [env.keyOf i]
      exact List.mem_singleton.mpr rfl
    · show env.keyOf i ∈ [env.keyOf j]
      exact List.mem_singleton.mpr hkey
  obtain ⟨bidi, hbidilt, oi, hoi, hoiidx⟩ := hinv.reg i hiapp
  obtain ⟨bidj, hbidjlt, oj, hoj, hojidx⟩ := hinv.reg j hjapp
  obtain ⟨ti, htilen, htieq⟩ :=
    (mem_iff_getD 0).mp ((hB.cover bidi).mpr hbidilt)
  obtain ⟨tj, htjlen, htjeq⟩ :=
    (mem_iff_getD 0).mp ((hB.cover bidj).mpr hbidjlt)
  have hri : oi.read = ri := by
    have h2 := (hinv.opsChar bidi hbidilt oi hoi).2
    rw [hoiidx, hdi] at h2
    exact h2
  have hrj : oj.read = rj := by
    have h2 := (hinv.opsChar bidj hbidjlt oj hoj).2
    rw [hojidx, hdj] at h2
    exact h2
  have htitj : ti < tj := by
    refine hB.pairOrder ti tj htilen htjlen oi ?_ oj ?_ ?_ ?_ ?_
    · rw [htieq]; exact hoi
    · rw [htjeq]; exact hoj
    · rw [hoiidx, hojidx]; exact hij
    · rw [hri, hrj]; exact hk
    · refine ⟨env.keyOf i, ?_, ?_⟩
      · rw [hoiidx]
        show env.keyOf i ∈ [env.keyOf i]
        exact List.mem_singleton.mpr rfl
      · rw [hojidx]
        show env.keyOf i ∈ [env.keyOf j]
        exact List.mem_singleton.mpr hkey
  have hne : ch ≠ [] := by
    intro h0
    have h2 := hB.two
    rw [h0] at h2
    simp at h2
  have hlen : ch.length ≤ (HandleBatch true env batch).2.blocks.length :=
    nodup_bounded_length_le hB.nodup (fun bid hb => (hB.cover bid).mp hb)
  have hc : CommitEvents env (HandleBatch true env batch).2 =
      ch.flatMap (fun bid => blockEvents env bid
        ((HandleBatch true env batch).2.blocks.getD bid default)) := by
    rw [commitEvents_head hB.fhHead]
    unfold chainTrace
    rw [chainIds_eq ch hB.links hne _ hlen]
  have hsplit : FullTrace true env batch =
      ((HandleBatch true env batch).1 ++
        (ch.take tj).flatMap (fun bid => blockEvents env bid
          ((HandleBatch true env batch).2.blocks.getD bid default))) ++
      (ch.drop tj).flatMap (fun bid => blockEvents env bid
        ((HandleBatch true env batch).2.blocks.getD bid default)) := by
    show (HandleBatch true env batch).1 ++
        CommitEvents env (HandleBatch true env batch).2 = _
    rw [hc]
    have hch : ch.flatMap (fun bid => blockEvents env bid
        ((HandleBatch true env batch).2.blocks.getD bid default)) =
        (ch.take tj).flatMap (fun bid => blockEvents env bid
          ((HandleBatch true env batch).2.blocks.getD bid default)) ++
        (ch.drop tj).flatMap (fun bid => blockEvents env bid
          ((HandleBatch true env batch).2.blocks.getD bid default)) := by
      conv_lhs => rw [← List.take_append_drop tj ch]
      rw [List.flatMap_append]
    rw [hch, ← List.append_assoc]
  have hnotA : Event.submit j ∉
      (HandleBatch true env batch).1 ++
        (ch.take tj).flatMap (fun bid => blockEvents env bid
          ((HandleBatch true env batch).2.blocks.getD bid default)) := by
    intro hmem
    rcases List.mem_append.mp hmem with hH | hT
    · rcases handleUpTo_events true env batch batch.length _ hH with h1 | h1
      · simp [isResp] at h1
      · exact Event.noConfusion h1
    · rw [List.mem_flatMap] at hT
      obtain ⟨bid, hbid, hsub⟩ := hT
      obtain ⟨o, ho, hoidx⟩ := submit_mem_blockEvents hsub
      obtain ⟨t, htlt, htlen, hteq⟩ := mem_take_exists_getD hbid
      have hbidlt : bid < (HandleBatch true env batch).2.blocks.length :=
        (hB.cover bid).mp (List.mem_of_mem_take hbid)
      have hbb : bid = bidj :=
        hinv.regU bid bidj hbidlt hbidjlt o ho oj hoj (by rw [hoidx, hojidx])
      have heq2 : ch.getD t 0 = ch.getD tj 0 := by rw [hteq, hbb, htjeq]
      have := nodup_getD_inj hB.nodup htlen htjlen 0 heq2
      omega
  have hrespA : ∃ e ∈ (HandleBatch true env batch).1 ++
        (ch.take tj).flatMap (fun bid => blockEvents env bid
          ((HandleBatch true env batch).2.blocks.getD bid default)),
      isRespFor i e = true := by
    obtain ⟨e, heB, hre⟩ := @resp_mem_blockEvents env bidi _ _ hoi
    refine ⟨e, List.mem_append_right _ ?_, by rwa [hoiidx] at hre⟩
    rw [List.mem_flatMap]
    refine ⟨bidi, ?_, heB⟩
    rw [← htieq]
    exact getD_mem_take htitj htilen
  intro p hp
  obtain ⟨e, heA, hei⟩ := hrespA
  obtain ⟨q, hq⟩ := List.getElem?_of_mem heA
  have hqlen : q < ((HandleBatch true env batch).1 ++
      (ch.take tj).flatMap (fun bid => blockEvents env bid
        ((HandleBatch true env batch).2.blocks.getD bid default))).length := by
    by_contra hge
    push_neg at hge
    rw [List.getElem?_eq_none hge] at hq
    cases hq
  have hpA : ((HandleBatch true env batch).1 ++
      (ch.take tj).flatMap (fun bid => blockEvents env bid
        ((HandleBatch true env batch).2.blocks.getD bid default))).length ≤ p := by
    by_contra hlt
    push_neg at hlt
    have hfa : (FullTrace true env batch)[p]? =
        ((HandleBatch true env batch).1 ++
          (ch.take tj).flatMap (fun bid => blockEvents env bid
            ((HandleBatch true env batch).2.blocks.getD bid default)))[p]? := by
      rw [hsplit]
      exact List.getElem?_append_left hlt
    rw [hfa] at hp
    exact hnotA (mem_of_getElem_opt hp)
  refine ⟨q, by omega, e, ?_, hei⟩
  rw [hsplit]
  rw [List.getElem?_append_left hqlen]
  exact hq

/-- Concrete run of the previous theorem: in `SET k v; GET k` under safe
batching the write block is launched first and the read of the same key is
submitted only at trace position 4, after the write's response at
position 2. -/
theorem c3_conflicting_pair_ordered_w :
    ∃ q : Nat, q < 4 ∧ ∃ e, (FullTrace true envPlainK batchWR)[q]? = some e ∧
      isRespFor 0 e = true :=
  c3_conflicting_pair_ordered envPlainK batchWR 0 1 false true
    (by decide) (by decide) rfl rfl rfl rfl 4 rfl

end RedisService
